import Mathlib

/-!
Verification of the agent-orchestration core of the Astromech runtime.

Shallow embedding of the Python sources:
- `app/agents/error_handler.py` (error classification, recovery planning)
- `app/agents/context_manager.py` (message sanitization)
- `app/agents/orchestrator_tool_runner.py` (tool batch dispatch)
- `app/agents/failover.py` (model failover chain)
- `app/agents/run_registry.py` (active run registry)
- `app/agents/session_manager.py` (wire <-> runtime message conversion)
- `app/core/models.py` (session trimming)
- `app/memory/relationship_memory.py` (relationship fact upsert)

Python strings are modeled as Lean `String` (ASCII behaviour of
`str.strip` / `str.lower` / `re` whitespace classes), Python `int` as
`Int`/`Nat`, Python `float` as `Rat`.
-/

/-- Python whitespace class (as used by `str.strip()` and regex `\s`),
restricted to ASCII. -/
def pyIsSpace (c : Char) : Bool :=
  c == ' ' || c == '\t' || c == '\n' || c == '\r' || c == '\x0b' || c == '\x0c'

/-- Python `str.strip()` on a character list. -/
def pyStripList (l : List Char) : List Char :=
  ((l.dropWhile pyIsSpace).reverse.dropWhile pyIsSpace).reverse

/-- Python `str.strip()`. -/
def pyStrip (s : String) : String :=
  (pyStripList s.toList).asString

/-- Truthiness of `s and s.strip()` in Python: the string has a
non-whitespace character. -/
def notBlank (s : String) : Bool :=
  !(pyStripList s.toList).isEmpty

/-- Python `str.lower()` on a character list (ASCII). -/
def lowerL (l : List Char) : List Char :=
  l.map Char.toLower

/-- Python `str.rstrip(chars)`: drop trailing characters that occur in
`cs`. -/
def pyRstripSet (cs : List Char) (s : String) : String :=
  (s.toList.reverse.dropWhile (fun c => cs.contains c)).reverse.asString

/-- Python `str.strip(chars)`: drop leading and trailing characters that
occur in `cs`. -/
def pyStripSet (cs : List Char) (s : String) : String :=
  (((s.toList.dropWhile (fun c => cs.contains c)).reverse.dropWhile
      (fun c => cs.contains c)).reverse).asString

/-- `sub` occurs as a contiguous substring of `l`. -/
def hasInfixL (l sub : List Char) : Bool :=
  l.tails.any (fun t => sub.isPrefixOf t)

/-- Case-insensitive substring test (regex `pat` with `re.IGNORECASE`
where `pat` is a plain literal): the caller passes the lowercased
haystack. -/
def containsLit (lower : List Char) (pat : String) : Bool :=
  hasInfixL lower pat.toList

/-! ## Error classification (`app/agents/error_handler.py`) -/

inductive ErrorClass where
  | context_overflow
  | rate_limit
  | auth_error
  | timeout
  | role_ordering
  | image_error
  | model_unavailable
  | tool_error
  | parse_error
  | unknown
deriving DecidableEq

inductive RecoveryStrategy where
  | retry
  | compact_context
  | rotate_model
  | reduce_context
  | abort
  | skip_tool
  | noneStrategy
deriving DecidableEq

/-- `_MAX_RETRIES` table from `error_handler.py`. -/
def maxRetries : ErrorClass → Nat
  | .context_overflow => 2
  | .rate_limit => 3
  | .auth_error => 1
  | .timeout => 3
  | .role_ordering => 2
  | .image_error => 1
  | .model_unavailable => 2
  | .tool_error => 1
  | .parse_error => 2
  | .unknown => 2

/-- `get_recovery_plan(error, attempt)` from `error_handler.py`: the plan
depends only on the error class and the 1-based attempt counter. -/
def getRecoveryPlan (c : ErrorClass) (attempt : Nat) : RecoveryStrategy :=
  if attempt > maxRetries c then .abort
  else
    match c with
    | .context_overflow => .compact_context
    | .rate_limit => .rotate_model
    | .auth_error => if attempt ≤ 1 then .rotate_model else .abort
    | .timeout => .rotate_model
    | .role_ordering => .reduce_context
    | .image_error => .skip_tool
    | .model_unavailable => .rotate_model
    | .tool_error => if attempt ≤ 1 then .skip_tool else .abort
    | .parse_error => .retry
    | .unknown => if attempt ≤ 2 then .retry else .abort

/-! Regex predicates of `classify_error`.  Each `_X_RE.search(msg)` with
`re.IGNORECASE` is modeled as a Boolean function of the lowercased
character list of `msg`.  Alternations of plain literals become
substring tests; the bounded-gap patterns (`.{0,30}` etc.) and the
optional-separator patterns are modeled by explicit scans. -/

/-- Match of `max\s*[\._-]?\s*length` starting at the given tail. -/
def maxLengthAt (t : List Char) : Bool :=
  if "max".toList.isPrefixOf t then
    let r := (t.drop 3).dropWhile pyIsSpace
    let r2 :=
      match r with
      | c :: r' => if c == '.' || c == '_' || c == '-' then r' else r
      | [] => r
    "length".toList.isPrefixOf (r2.dropWhile pyIsSpace)
  else false

/-- `_CONTEXT_OVERFLOW_RE` = `context|token|too long|max\s*[\._-]?\s*length`. -/
def ctxOverflowMatch (msg : String) : Bool :=
  let l := lowerL msg.toList
  containsLit l "context" || containsLit l "token" || containsLit l "too long" ||
    l.tails.any maxLengthAt

/-- `_RATE_LIMIT_RE` = `rate|429|quota|too many requests`. -/
def rateLimitMatch (msg : String) : Bool :=
  let l := lowerL msg.toList
  containsLit l "rate" || containsLit l "429" || containsLit l "quota" ||
    containsLit l "too many requests"

/-- Match of `api[_\s]?key` starting at the given tail. -/
def apiKeyAt (t : List Char) : Bool :=
  if "api".toList.isPrefixOf t then
    let r := t.drop 3
    "key".toList.isPrefixOf r ||
      (match r with
       | c :: r' => (c == '_' || pyIsSpace c) && "key".toList.isPrefixOf r'
       | [] => false)
  else false

/-- `_AUTH_RE` = `auth|401|403|api[_\s]?key|permission`. -/
def authMatch (msg : String) : Bool :=
  let l := lowerL msg.toList
  containsLit l "auth" || containsLit l "401" || containsLit l "403" ||
    l.tails.any apiKeyAt || containsLit l "permission"

/-- Match of `timed?\s*out` starting at the given tail. -/
def timedOutAt (t : List Char) : Bool :=
  if "time".toList.isPrefixOf t then
    let r := t.drop 4
    "out".toList.isPrefixOf (r.dropWhile pyIsSpace) ||
      (match r with
       | c :: r' => c == 'd' && "out".toList.isPrefixOf (r'.dropWhile pyIsSpace)
       | [] => false)
  else false

/-- `_TIMEOUT_RE` = `timeout|timed?\s*out|deadline`. -/
def timeoutMatch (msg : String) : Bool :=
  let l := lowerL msg.toList
  containsLit l "timeout" || l.tails.any timedOutAt || containsLit l "deadline"

/-- `_ROLE_ORDERING_RE` = `role|turn|ordering|must alternate`. -/
def roleOrderingMatch (msg : String) : Bool :=
  let l := lowerL msg.toList
  containsLit l "role" || containsLit l "turn" || containsLit l "ordering" ||
    containsLit l "must alternate"

/-- `_IMAGE_RE` = `image|vision|media|dimension|size`. -/
def imageMatch (msg : String) : Bool :=
  let l := lowerL msg.toList
  containsLit l "image" || containsLit l "vision" || containsLit l "media" ||
    containsLit l "dimension" || containsLit l "size"

/-- Bounded-gap scan: some phrase of `phrases` matches after at most
`gap` arbitrary non-newline characters (regex `.{0,n}` with
backtracking). -/
def gapPhraseAt (phrases : List String) (gap : Nat) : List Char → Bool
  | r =>
    if phrases.any (fun p => p.toList.isPrefixOf r) then true
    else
      match gap, r with
      | g + 1, c :: r' => c != '\n' && gapPhraseAt phrases g r'
      | _, _ => false

/-- Match of `model.{0,30}(?:not found|unavailable|deprecated)` at the
given tail. -/
def modelUnavailableAt (t : List Char) : Bool :=
  "model".toList.isPrefixOf t &&
    gapPhraseAt ["not found", "unavailable", "deprecated"] 30 (t.drop 5)

/-- `_MODEL_UNAVAILABLE_RE`. -/
def modelUnavailableMatch (msg : String) : Bool :=
  (lowerL msg.toList).tails.any modelUnavailableAt

/-- Match of `tool.{0,20}error|error.{0,20}tool` at the given tail. -/
def toolErrorAt (t : List Char) : Bool :=
  ("tool".toList.isPrefixOf t && gapPhraseAt ["error"] 20 (t.drop 4)) ||
    ("error".toList.isPrefixOf t && gapPhraseAt ["tool"] 20 (t.drop 5))

/-- `_TOOL_ERROR_RE`. -/
def toolErrorMatch (msg : String) : Bool :=
  (lowerL msg.toList).tails.any toolErrorAt

/-- `_PARSE_RE` = `json|parse|decode`. -/
def parseMatch (msg : String) : Bool :=
  let l := lowerL msg.toList
  containsLit l "json" || containsLit l "parse" || containsLit l "decode"

/-- Model of a Python exception as consumed by `classify_error`:
its `str()` text, the `str()` of its `__cause__` when set, the HTTP
status code found by `_extract_status_code`, and whether it is an
instance of `TimeoutError`/`asyncio.TimeoutError`. -/
structure PyExc where
  text : String
  cause : Option String
  status : Option Int
  isTimeoutInst : Bool

/-- `_build_message(exc, context)`. -/
def buildMessage (e : PyExc) (context : String) : String :=
  String.intercalate " | "
    ((if context ≠ "" then [context] else []) ++ [e.text] ++ e.cause.toList)

structure ClassifiedError where
  errorClass : ErrorClass
  message : String
  isRetryable : Bool
  recoveryStrategy : RecoveryStrategy
  statusCode : Option Int
deriving DecidableEq

/-- `classify_error(exception, context)`: the ordered rule cascade. -/
def classifyError (e : PyExc) (context : String) : ClassifiedError :=
  let msg := buildMessage e context
  let status := e.status
  if ctxOverflowMatch msg then
    ⟨.context_overflow, msg, true, .compact_context, status⟩
  else if rateLimitMatch msg || status == some 429 then
    ⟨.rate_limit, msg, true, .rotate_model, status⟩
  else if authMatch msg || status == some 401 || status == some 403 then
    ⟨.auth_error, msg, false, .rotate_model, status⟩
  else if e.isTimeoutInst || timeoutMatch msg then
    ⟨.timeout, msg, true, .retry, status⟩
  else if roleOrderingMatch msg then
    ⟨.role_ordering, msg, true, .reduce_context, status⟩
  else if imageMatch msg then
    ⟨.image_error, msg, false, .skip_tool, status⟩
  else if modelUnavailableMatch msg then
    ⟨.model_unavailable, msg, true, .rotate_model, status⟩
  else if toolErrorMatch msg then
    ⟨.tool_error, msg, false, .skip_tool, status⟩
  else if parseMatch msg then
    ⟨.parse_error, msg, true, .retry, status⟩
  else
    ⟨.unknown, msg, true, .retry, status⟩

/-- The claim C5 quotes the spec pattern `/context|token|too long|max.?length/i`:
`max` followed by at most one arbitrary non-newline character and then
`length`.  This is the spec's wording, kept separate from the source
pattern `ctxOverflowMatch` so the two can be compared. -/
def specMaxAnyAt (t : List Char) : Bool :=
  if "max".toList.isPrefixOf t then
    let r := t.drop 3
    "length".toList.isPrefixOf r ||
      (match r with
       | c :: r' => c != '\n' && "length".toList.isPrefixOf r'
       | [] => false)
  else false

/-- Spec regex `/context|token|too long|max.?length/i` (modelled from the
spec's words, for comparison with the source pattern). -/
def specCtxOverflowMatch (msg : String) : Bool :=
  let l := lowerL msg.toList
  containsLit l "context" || containsLit l "token" || containsLit l "too long" ||
    l.tails.any specMaxAnyAt

/-! ## Claim C4: recovery planner escalation -/

/-- Claim C4: for every classified error class and every attempt number
`n ≥ 1`, `get_recovery_plan` returns `ABORT` whenever `n` exceeds the
per-class retry maximum (CONTEXT_OVERFLOW:2, RATE_LIMIT:3, AUTH_ERROR:1,
TIMEOUT:3, ROLE_ORDERING:2, IMAGE_ERROR:1, MODEL_UNAVAILABLE:2,
TOOL_ERROR:1, PARSE_ERROR:2, UNKNOWN:2), and for class TIMEOUT with `n`
within the maximum it returns ROTATE_MODEL already from the first
retry. -/
theorem C4_recovery_plan_escalation (c : ErrorClass) (n : Nat) (hn : 1 ≤ n) :
    (n > maxRetries c → getRecoveryPlan c n = .abort) ∧
    (maxRetries .context_overflow = 2 ∧ maxRetries .rate_limit = 3 ∧
     maxRetries .auth_error = 1 ∧ maxRetries .timeout = 3 ∧
     maxRetries .role_ordering = 2 ∧ maxRetries .image_error = 1 ∧
     maxRetries .model_unavailable = 2 ∧ maxRetries .tool_error = 1 ∧
     maxRetries .parse_error = 2 ∧ maxRetries .unknown = 2) ∧
    (c = .timeout → n ≤ maxRetries .timeout →
      getRecoveryPlan c n = .rotate_model) := by
  refine ⟨fun h => ?_, by simp [maxRetries], fun hc hn2 => ?_⟩
  · unfold getRecoveryPlan
    rw [if_pos h]
  · subst hc
    unfold getRecoveryPlan
    rw [if_neg (by simp [maxRetries] at hn2 ⊢; omega)]

/-- Witness for C4 at the concrete input `TIMEOUT`, attempt 1. -/
theorem C4_recovery_plan_escalation_witness :
    getRecoveryPlan .timeout 1 = .rotate_model :=
  (C4_recovery_plan_escalation .timeout 1 (by decide)).2.2 rfl (by decide)

/-! ## Claim C5: first-match-wins context-overflow classification -/

/-- Claim C5, counterexample: the claim quantifies over inputs matching
the spec's pattern `/context|token|too long|max.?length/i`, but the
source pattern is `max\s*[\._-]?\s*length`; the exception text
`"maxqlength"` matches the spec pattern yet is classified `UNKNOWN`,
not `CONTEXT_OVERFLOW`. -/
theorem C5_first_rule_counterexample :
    ¬(specCtxOverflowMatch
        (buildMessage ⟨"maxqlength", none, none, false⟩ "") = true →
      (classifyError ⟨"maxqlength", none, none, false⟩ "").errorClass =
        .context_overflow) := by
  decide

/-- Claim C5 (amended): with the source pattern
`context|token|too long|max\s*[\._-]?\s*length` in place of the spec's
`max.?length` shorthand, the first rule wins: for every exception and
hint whose combined message matches the pattern, `classify_error`
returns `CONTEXT_OVERFLOW` with strategy `COMPACT_CONTEXT` and
`retryable = true`, regardless of any later rule that would also
match. -/
theorem C5_first_rule_wins (e : PyExc) (context : String)
    (h : ctxOverflowMatch (buildMessage e context) = true) :
    classifyError e context =
      ⟨.context_overflow, buildMessage e context, true, .compact_context,
        e.status⟩ := by
  unfold classifyError
  rw [if_pos h]

/-- Witness for C5 at a concrete exception whose text also matches the
rate-limit rule (`"429"`), showing the first rule still wins. -/
theorem C5_first_rule_wins_witness :
    classifyError ⟨"token limit exceeded, 429", none, some 429, false⟩ "" =
      ⟨.context_overflow, "token limit exceeded, 429", true,
        .compact_context, some 429⟩ :=
  C5_first_rule_wins ⟨"token limit exceeded, 429", none, some 429, false⟩ ""
    (by decide)

/-! ## Session trimming (`app/core/models.py`) -/

/-- `MAX_SESSION_MESSAGES` from `app/core/models.py`. -/
def MAX_SESSION_MESSAGES : Int := 200

/-- The fields of `AgentSession` that `trim_messages` touches.  The
message payload type is a parameter: trimming never inspects messages. -/
structure SessionState (α : Type) where
  messages : List α
  lastSummaryIndex : Int
deriving DecidableEq

/-- `AgentSession.trim_messages` from `app/core/models.py`. -/
def trimMessages {α : Type} (s : SessionState α) : SessionState α :=
  let overflow : Int := (s.messages.length : Int) - MAX_SESSION_MESSAGES
  if overflow > 0 then
    { messages := s.messages.drop overflow.toNat,
      lastSummaryIndex := max 0 (s.lastSummaryIndex - overflow) }
  else s

/-- Claim C6, counterexample: the claim's precondition only requires
`last_summary_index ≤ len(messages)`; for the session with no messages
and `last_summary_index = -1` the precondition holds, `trim_messages`
changes nothing, and the claimed post-invariant `0 ≤ last_summary_index`
fails. -/
theorem C6_trim_messages_counterexample :
    (-1 : Int) ≤ (([] : List Unit).length : Int) ∧
    ¬(0 ≤ (trimMessages (⟨[], -1⟩ : SessionState Unit)).lastSummaryIndex) := by
  refine ⟨by decide, ?_⟩
  show ¬(0 ≤ (-1 : Int))
  decide

/-- Claim C6 (amended): for every session with
`0 ≤ last_summary_index ≤ len(messages)` before the call, after
`trim_messages` the invariant
`0 ≤ last_summary_index ≤ len(messages) ≤ 200` holds; when `len > 200`
exactly the oldest `len - 200` messages are dropped and
`last_summary_index` is decremented by the overflow, clamped at 0; when
`len ≤ 200` nothing changes. -/
theorem C6_trim_messages_invariant {α : Type} (s : SessionState α)
    (h0 : 0 ≤ s.lastSummaryIndex)
    (h1 : s.lastSummaryIndex ≤ (s.messages.length : Int)) :
    0 ≤ (trimMessages s).lastSummaryIndex ∧
    (trimMessages s).lastSummaryIndex ≤ ((trimMessages s).messages.length : Int) ∧
    ((trimMessages s).messages.length : Int) ≤ MAX_SESSION_MESSAGES ∧
    (((s.messages.length : Int) > MAX_SESSION_MESSAGES) →
      (trimMessages s).messages = s.messages.drop (s.messages.length - 200) ∧
      (trimMessages s).lastSummaryIndex =
        max 0 (s.lastSummaryIndex - ((s.messages.length : Int) - 200))) ∧
    (((s.messages.length : Int) ≤ MAX_SESSION_MESSAGES) → trimMessages s = s) := by
  have key : trimMessages s =
      if ((s.messages.length : Int) - 200) > 0 then
        (⟨s.messages.drop ((s.messages.length : Int) - 200).toNat,
          max 0 (s.lastSummaryIndex - ((s.messages.length : Int) - 200))⟩ : SessionState α)
      else s := rfl
  by_cases hov : ((s.messages.length : Int) - 200) > 0
  · rw [key, if_pos hov]
    dsimp only
    have htn : ((s.messages.length : Int) - 200).toNat = s.messages.length - 200 := by
      omega
    refine ⟨le_max_left _ _, ?_, ?_, fun _ => ⟨by rw [htn], rfl⟩,
      fun hle => absurd hov (by unfold MAX_SESSION_MESSAGES at hle; omega)⟩
    · rw [List.length_drop, max_le_iff]
      constructor <;> omega
    · rw [List.length_drop]
      unfold MAX_SESSION_MESSAGES
      omega
  · rw [key, if_neg hov]
    exact ⟨h0, h1, by unfold MAX_SESSION_MESSAGES; omega,
      fun hgt => absurd hgt (by unfold MAX_SESSION_MESSAGES; omega), fun _ => rfl⟩

set_option maxRecDepth 8000 in
/-- Witness for C6 at a concrete session of 201 unit messages with
`last_summary_index = 5`. -/
theorem C6_trim_messages_invariant_witness :
    0 ≤ (trimMessages (⟨List.replicate 201 (), 5⟩ : SessionState Unit)).lastSummaryIndex ∧
    (trimMessages (⟨List.replicate 201 (), 5⟩ : SessionState Unit)).lastSummaryIndex ≤
      ((trimMessages (⟨List.replicate 201 (), 5⟩ : SessionState Unit)).messages.length : Int) := by
  have h := C6_trim_messages_invariant (⟨List.replicate 201 (), 5⟩ : SessionState Unit)
    (by decide) (by decide)
  exact ⟨h.1, h.2.1⟩

/-! ## Active run registry (`app/agents/run_registry.py`) -/

inductive RunStatus where
  | running
  | completed
  | aborted
  | timed_out
deriving DecidableEq

/-- The fields of `RunHandle` that `abort_run` reads or writes.  The
asyncio `Event`s are modeled by their set/unset flag; the pending
timeout task by a flag that cancellation clears. -/
structure RunHandle where
  status : RunStatus
  cancelReason : Option String
  abortEvent : Bool
  doneEvent : Bool
  currentTurn : Nat
  maxTurns : Nat
  timeoutTaskPending : Bool
deriving DecidableEq

/-- The module-level `ACTIVE_RUNS` dict, as an association list with
unique keys (Python dict semantics). -/
def RunRegistry : Type := List (String × RunHandle)

/-- `ACTIVE_RUNS.get(session_id)`. -/
def regLookup (reg : RunRegistry) (sid : String) : Option RunHandle :=
  ((reg : List (String × RunHandle)).find? (fun e => e.1 == sid)).map (·.2)

/-- In-place mutation of the handle stored under `sid`. -/
def regUpdate (reg : RunRegistry) (sid : String) (h : RunHandle) : RunRegistry :=
  (reg : List (String × RunHandle)).map (fun e => if e.1 == sid then (e.1, h) else e)

/-- The handle state written by a successful `abort_run`. -/
def abortedHandle (r : RunHandle) (reason : String) : RunHandle :=
  { r with status := .aborted, cancelReason := some reason,
           abortEvent := true, doneEvent := true, timeoutTaskPending := false }

/-- `abort_run(session_id, reason)` from `run_registry.py`: returns the
new registry and the Boolean result. -/
def abortRun (reg : RunRegistry) (sid reason : String) : RunRegistry × Bool :=
  match regLookup reg sid with
  | none => (reg, false)
  | some run =>
    if run.status ≠ .running then (reg, false)
    else (regUpdate reg sid (abortedHandle run reason), true)

/-- Claim C10: `abort_run` succeeds exactly when a handle for the session
exists with status `running`, in which case the registry holds that
handle with status `aborted`, the recorded reason, and the abort and done
events set (and the watchdog cancelled); in every other case it returns
`False` and leaves the registry (hence every handle's fields) entirely
unchanged. -/
theorem C10_abort_run_spec (reg : RunRegistry) (sid reason : String) :
    ((abortRun reg sid reason).2 = true ↔
      ∃ r, regLookup reg sid = some r ∧ r.status = .running) ∧
    ((abortRun reg sid reason).2 = false → (abortRun reg sid reason).1 = reg) ∧
    (∀ r, regLookup reg sid = some r → r.status = .running →
      (abortRun reg sid reason).1 = regUpdate reg sid (abortedHandle r reason)) := by
  rcases hl : regLookup reg sid with _ | r
  · simp [abortRun, hl]
  · by_cases hs : r.status = .running
    · simp [abortRun, hl, hs]
    · simp [abortRun, hl, hs]

/-- Witness for C10 at a concrete one-entry registry with a running
handle. -/
theorem C10_abort_run_spec_witness :
    (abortRun [("s1", ⟨.running, none, false, false, 0, 25, true⟩)] "s1" "user_cancelled").1 =
      regUpdate [("s1", ⟨.running, none, false, false, 0, 25, true⟩)] "s1"
        (abortedHandle ⟨.running, none, false, false, 0, 25, true⟩ "user_cancelled") :=
  (C10_abort_run_spec [("s1", ⟨.running, none, false, false, 0, 25, true⟩)] "s1"
      "user_cancelled").2.2 ⟨.running, none, false, false, 0, 25, true⟩ (by decide) rfl

/-! ## Model failover chain (`app/agents/failover.py`) -/

/-- The mutable state of a `FailoverChain`: the ordered `(provider,
model_id)` chain, the current position, the set of failed positions, and
the audit log of attempts. -/
structure FailoverState where
  chain : List (String × String)
  index : Nat
  failed : Finset Nat
  attempts : List (String × String × String)
deriving DecidableEq

/-- The fresh state after `__init__` / after `reset()` for a given
chain. -/
def initFailover (chain : List (String × String)) : FailoverState :=
  ⟨chain, 0, ∅, []⟩

/-- The `while next_idx < len(chain) and next_idx in failed: next_idx += 1`
scan of `FailoverChain.advance`. -/
def scanNext (failed : Finset Nat) (len k : Nat) : Nat :=
  if k < len ∧ k ∈ failed then scanNext failed len (k + 1) else k
termination_by len - k
decreasing_by omega

/-- `FailoverChain.advance(reason)`.  Returns `none` when the initial
`self._chain[self._index]` raises `IndexError` (chain exhausted or
empty); otherwise the updated state and the Boolean result. -/
def advanceFailover (s : FailoverState) (reason : String) : Option (FailoverState × Bool) :=
  match s.chain.get? s.index with
  | none => none
  | some (p, m) =>
    let failed' := insert s.index s.failed
    let att' := s.attempts ++ [(p, m, reason)]
    let nxt := scanNext failed' s.chain.length (s.index + 1)
    some (⟨s.chain, nxt, failed', att'⟩, decide (nxt < s.chain.length))

/-- `FailoverChain.reset()`. -/
def resetFailover (s : FailoverState) : FailoverState :=
  ⟨s.chain, 0, ∅, []⟩

/-- `FailoverChain.is_exhausted()`. -/
def isExhausted (s : FailoverState) : Bool :=
  decide (s.index ≥ s.chain.length)

/-- One public mutation of the chain. -/
inductive FailoverOp where
  | advanceOp (reason : String)
  | resetOp

/-- Run a sequence of `advance`/`reset` calls from a state.  An `advance`
on an exhausted chain raises before mutating anything, so it leaves the
state unchanged. -/
def runFailoverOps (s : FailoverState) : List FailoverOp → FailoverState
  | [] => s
  | .advanceOp r :: ops =>
    runFailoverOps (match advanceFailover s r with
                    | some (s', _) => s'
                    | none => s) ops
  | .resetOp :: ops => runFailoverOps (resetFailover s) ops

/-- Specification of the scan: it never moves backwards, every skipped
position is failed and in range, and if it stops in range the stop
position is not failed. -/
theorem scanNext_spec (failed : Finset Nat) (len : Nat) :
    ∀ fuel k, len - k ≤ fuel →
      k ≤ scanNext failed len k ∧
      (∀ i, k ≤ i → i < scanNext failed len k → i < len ∧ i ∈ failed) ∧
      (scanNext failed len k < len → scanNext failed len k ∉ failed) := by
  intro fuel
  induction fuel with
  | zero =>
    intro k hk
    rw [scanNext]
    have : ¬(k < len ∧ k ∈ failed) := by
      intro ⟨h1, _⟩
      omega
    rw [if_neg this]
    exact ⟨le_refl _, fun i h1 h2 => absurd (lt_of_le_of_lt h1 h2) (by omega), fun h hm => this ⟨h, hm⟩⟩
  | succ n ih =>
    intro k hk
    rw [scanNext]
    by_cases hc : k < len ∧ k ∈ failed
    · rw [if_pos hc]
      obtain ⟨ha, hb, hc'⟩ := ih (k + 1) (by omega)
      refine ⟨by omega, fun i h1 h2 => ?_, hc'⟩
      rcases Nat.eq_or_lt_of_le h1 with rfl | h1'
      · exact ⟨hc.1, hc.2⟩
      · exact hb i h1' h2
    · rw [if_neg hc]
      exact ⟨le_refl _, fun i h1 h2 => absurd (lt_of_le_of_lt h1 h2) (by omega), fun h hm => hc ⟨h, hm⟩⟩

/-- Reachability invariant of the failover chain: every position below
the current one is failed, and the current position (when in range) is
not failed. -/
def FailoverInv (s : FailoverState) : Prop :=
  (∀ i, i < s.index → i ∈ s.failed) ∧
  (s.index < s.chain.length → s.index ∉ s.failed)

theorem initFailover_inv (chain : List (String × String)) :
    FailoverInv (initFailover chain) :=
  ⟨fun i h => absurd h (Nat.not_lt_zero i), fun _ h => absurd h (Finset.not_mem_empty 0)⟩

theorem advanceFailover_inv (s : FailoverState) (r : String) (s' : FailoverState)
    (b : Bool) (hinv : FailoverInv s) (h : advanceFailover s r = some (s', b)) :
    FailoverInv s' := by
  unfold advanceFailover at h
  rcases hg : s.chain.get? s.index with _ | pm
  · rw [hg] at h; exact absurd h (by simp)
  · rw [hg] at h
    obtain ⟨ha, hb, hc⟩ := scanNext_spec (insert s.index s.failed) s.chain.length
      (s.chain.length - (s.index + 1)) (s.index + 1) (le_refl _)
    have hs' : s' = ⟨s.chain, scanNext (insert s.index s.failed) s.chain.length (s.index + 1),
        insert s.index s.failed, s.attempts ++ [(pm.1, pm.2, r)]⟩ := by
      cases pm
      simp only [Option.some.injEq, Prod.mk.injEq] at h
      exact h.1.symm
    subst hs'
    constructor
    · intro i hi
      simp only [Finset.mem_insert]
      by_cases hlt : i < s.index + 1
      · rcases Nat.lt_succ_iff_lt_or_eq.mp hlt with h' | h'
        · exact Or.inr (hinv.1 i h')
        · exact Or.inl h'
      · have := hb i (by omega) hi
        simpa using this.2
    · intro hlt
      exact hc hlt

theorem resetFailover_inv (s : FailoverState) : FailoverInv (resetFailover s) :=
  ⟨fun i h => absurd h (Nat.not_lt_zero i), fun _ h => absurd h (Finset.not_mem_empty 0)⟩

theorem runFailoverOps_inv (ops : List FailoverOp) :
    ∀ s, FailoverInv s → FailoverInv (runFailoverOps s ops) := by
  induction ops with
  | nil => exact fun s h => h
  | cons op ops ih =>
    intro s hinv
    cases op with
    | advanceOp r =>
      rw [runFailoverOps]
      rcases ha : advanceFailover s r with _ | sb
      · exact ih s hinv
      · exact ih sb.1 (advanceFailover_inv s r sb.1 sb.2 hinv (by rw [ha]))
    | resetOp =>
      rw [runFailoverOps]
      exact ih (resetFailover s) (resetFailover_inv s)

/-- Claim C9: `FailoverChain.advance` is monotonic.  In every state
reachable from a fresh chain by any sequence of `advance`/`reset` calls,
the current index is never one that was marked failed (until `reset`
clears the failure set); and from such a state, `advance` returns
`False` exactly when no non-failed index remains (every chain position
is then in the failed set), in which case the chain is exhausted. -/
theorem C9_failover_advance_monotonic (chain : List (String × String))
    (ops : List FailoverOp) :
    ((runFailoverOps (initFailover chain) ops).index <
        (runFailoverOps (initFailover chain) ops).chain.length →
      (runFailoverOps (initFailover chain) ops).index ∉
        (runFailoverOps (initFailover chain) ops).failed) ∧
    (∀ r s' b, advanceFailover (runFailoverOps (initFailover chain) ops) r = some (s', b) →
      ((b = false ↔ ∀ i, i < s'.chain.length → i ∈ s'.failed) ∧
       (b = false → isExhausted s' = true))) := by
  set s := runFailoverOps (initFailover chain) ops with hs
  have hinv : FailoverInv s :=
    runFailoverOps_inv ops (initFailover chain) (initFailover_inv chain)
  refine ⟨hinv.2, ?_⟩
  intro r s' b h
  unfold advanceFailover at h
  rcases hg : s.chain.get? s.index with _ | pm
  · rw [hg] at h; exact absurd h (by simp)
  · rw [hg] at h
    have hidx : s.index < s.chain.length := List.get?_eq_some.mp hg |>.1
    obtain ⟨ha, hb, hc⟩ := scanNext_spec (insert s.index s.failed) s.chain.length
      (s.chain.length - (s.index + 1)) (s.index + 1) (le_refl _)
    have hs' : s' = ⟨s.chain, scanNext (insert s.index s.failed) s.chain.length (s.index + 1),
        insert s.index s.failed, s.attempts ++ [(pm.1, pm.2, r)]⟩ ∧
        b = decide (scanNext (insert s.index s.failed) s.chain.length (s.index + 1) <
          s.chain.length) := by
      cases pm
      simp only [Option.some.injEq, Prod.mk.injEq] at h
      exact ⟨h.1.symm, h.2.symm⟩
    set nxt := scanNext (insert s.index s.failed) s.chain.length (s.index + 1) with hn
    obtain ⟨rfl, rfl⟩ := hs'
    constructor
    · constructor
      · intro hfalse i hi
        have hi' : i < s.chain.length := hi
        have hnge : ¬(nxt < s.chain.length) := by
          simpa using hfalse
        simp only [Finset.mem_insert]
        by_cases h1 : i < s.index
        · exact Or.inr (hinv.1 i h1)
        · by_cases h2 : i = s.index
          · exact Or.inl h2
          · have h3 : s.index + 1 ≤ i := by omega
            have := hb i h3 (by omega)
            simpa using this.2
      · intro hall
        by_contra hne
        have hlt : nxt < s.chain.length := by
          simpa using hne
        exact absurd (hall nxt hlt) (hc hlt)
    · intro hfalse
      have hnge : ¬(nxt < s.chain.length) := by simpa using hfalse
      unfold isExhausted
      simpa using Nat.le_of_not_lt hnge

/-- Witness for C9 at a concrete two-model chain after one advance. -/
theorem C9_failover_advance_monotonic_witness :
    ((runFailoverOps (initFailover [("g", "m1"), ("o", "m2")]) [.advanceOp "err"]).index <
        (runFailoverOps (initFailover [("g", "m1"), ("o", "m2")]) [.advanceOp "err"]).chain.length →
      (runFailoverOps (initFailover [("g", "m1"), ("o", "m2")]) [.advanceOp "err"]).index ∉
        (runFailoverOps (initFailover [("g", "m1"), ("o", "m2")]) [.advanceOp "err"]).failed) :=
  (C9_failover_advance_monotonic [("g", "m1"), ("o", "m2")] [.advanceOp "err"]).1

/-! ## Tool batch dispatch (`app/agents/orchestrator_tool_runner.py`) -/

/-- One entry of an assistant message's `tool_calls` list: `name`,
`args` (opaque payload), optional `id`. -/
structure ToolCallEntry where
  name : String
  args : String
  id : Option String
deriving DecidableEq

/-- A `ToolMessage` produced by the batch runner. -/
structure ToolResultMsg where
  content : String
  toolCallId : Option String
  name : String
deriving DecidableEq

/-- The error content for an unknown tool name:
`f"Error: Tool '{name}' not found."`. -/
def unknownToolContent (name : String) : String :=
  let q := String.singleton (Char.ofNat 39)
  "Error: Tool " ++ q ++ name ++ q ++ " not found."

/-- `execute_tool_batch` from `orchestrator_tool_runner.py`.  The calls
are partitioned by membership of their name in the tool map (`known`);
the valid calls run concurrently under `asyncio.gather` (order
preserving), each producing exactly one `ToolMessage` whose content is
abstracted by the oracle `runContent` (covering guardian blocks, retry
results, error wrapping of raised exceptions — in every branch
`_execute_single_tool` and the `gather` post-pass build the message with
the call's own `id` and `name`); the invalid calls each get a not-found
error message.  Valid results are appended first, then the invalid
ones.  `handle_tool_response` then appends the returned list to the
conversation in this order. -/
def executeToolBatch (runContent : ToolCallEntry → String)
    (known : String → Bool) (toolCalls : List ToolCallEntry) : List ToolResultMsg :=
  let valid := toolCalls.filter (fun tc => known tc.name)
  let invalid := toolCalls.filter (fun tc => !known tc.name)
  (valid.map fun tc => ⟨runContent tc, tc.id, tc.name⟩) ++
    (invalid.map fun tc => ⟨unknownToolContent tc.name, tc.id, tc.name⟩)

/-- Claim C2, counterexample: for the batch
`[{name "nope", id "1"}, {name "echo", id "2"}]` where only `"echo"` is a
known tool, the batch runner emits the messages in the order
`["2", "1"]`, not the originating order `["1", "2"]`: error messages for
unknown names are appended after all valid results. -/
theorem C2_tool_batch_order_counterexample :
    ¬((executeToolBatch (fun _ => "ok") (fun n => n == "echo")
        [⟨"nope", "a", some "1"⟩, ⟨"echo", "a", some "2"⟩]).map
          (fun m => m.toolCallId) =
      [⟨"nope", "a", some "1"⟩, ⟨"echo", "a", some "2"⟩].map
        (fun tc => ToolCallEntry.id tc)) := by
  decide

/-- Claim C2 (amended): every tool-call batch produces exactly one Tool
message per originating call, carrying that call's id and name; the
messages for known-name calls come first, in the originating order of
those calls, followed by one error message per unknown-name call, in
the originating order of those calls (an unknown name does not abort
the batch); in particular, when every name in the batch is known, the
results are appended exactly in the order of the originating
`tool_calls` list. -/
theorem C2_tool_batch_order (runContent : ToolCallEntry → String)
    (known : String → Bool) (toolCalls : List ToolCallEntry) :
    (executeToolBatch runContent known toolCalls).length = toolCalls.length ∧
    ((executeToolBatch runContent known toolCalls).map
        (fun m => (m.toolCallId, m.name))).Perm
      (toolCalls.map (fun tc => (tc.id, tc.name))) ∧
    executeToolBatch runContent known toolCalls =
      ((toolCalls.filter (fun tc => known tc.name)).map
        (fun tc => (⟨runContent tc, tc.id, tc.name⟩ : ToolResultMsg))) ++
      ((toolCalls.filter (fun tc => !known tc.name)).map
        (fun tc => (⟨unknownToolContent tc.name, tc.id, tc.name⟩ : ToolResultMsg))) ∧
    ((∀ tc ∈ toolCalls, known tc.name = true) →
      executeToolBatch runContent known toolCalls =
        toolCalls.map (fun tc => (⟨runContent tc, tc.id, tc.name⟩ : ToolResultMsg))) := by
  have hperm : ((toolCalls.filter (fun tc => known tc.name)) ++
      (toolCalls.filter (fun tc => !known tc.name))).Perm toolCalls :=
    List.filter_append_perm _ toolCalls
  refine ⟨?_, ?_, rfl, ?_⟩
  · unfold executeToolBatch
    rw [List.length_append, List.length_map, List.length_map]
    have := hperm.length_eq
    rw [List.length_append] at this
    exact this
  · unfold executeToolBatch
    have : ((toolCalls.filter (fun tc => known tc.name)).map
          (fun tc => (⟨runContent tc, tc.id, tc.name⟩ : ToolResultMsg)) ++
        (toolCalls.filter (fun tc => !known tc.name)).map
          (fun tc => (⟨unknownToolContent tc.name, tc.id, tc.name⟩ : ToolResultMsg))).map
          (fun m => (m.toolCallId, m.name)) =
        ((toolCalls.filter (fun tc => known tc.name)) ++
          (toolCalls.filter (fun tc => !known tc.name))).map
          (fun tc => (tc.id, tc.name)) := by
      rw [List.map_append, List.map_append, List.map_map, List.map_map]
      rfl
    rw [this]
    exact hperm.map _
  · intro hall
    unfold executeToolBatch
    have h1 : toolCalls.filter (fun tc => known tc.name) = toolCalls :=
      List.filter_eq_self.mpr hall
    have h2 : toolCalls.filter (fun tc => !known tc.name) = [] := by
      rw [List.filter_eq_nil_iff]
      intro tc htc
      simp [hall tc htc]
    rw [h1, h2]
    simp

/-- Witness for C2's all-known clause at a concrete two-call batch. -/
theorem C2_tool_batch_order_witness :
    executeToolBatch (fun tc => tc.name ++ "-done") (fun _ => true)
        [⟨"read", "a", some "1"⟩, ⟨"write", "b", some "2"⟩] =
      [⟨"read-done", some "1", "read"⟩, ⟨"write-done", some "2", "write"⟩] := by
  have h := (C2_tool_batch_order (fun tc => tc.name ++ "-done") (fun _ => true)
    [⟨"read", "a", some "1"⟩, ⟨"write", "b", some "2"⟩]).2.2.2 (fun tc _ => rfl)
  rw [h]
  rfl

/-! ## Relationship memory (`app/memory/relationship_memory.py`) -/

/-- Lexicographic (code-point) order on strings, as used by Python's
`sorted`. -/
def strLeChars : List Char → List Char → Bool
  | [], _ => true
  | _ :: _, [] => false
  | a :: as, b :: bs => if a = b then strLeChars as bs else decide (a < b)

def strLe (a b : String) : Bool :=
  strLeChars a.toList b.toList

def insertSorted (a : String) : List String → List String
  | [] => [a]
  | b :: t => if strLe a b then a :: b :: t else b :: insertSorted a t

def sortStrings (l : List String) : List String :=
  l.foldr insertSorted []

/-- Python `sorted(set(l))`: ascending order, duplicates removed. -/
def sortedTagSet (l : List String) : List String :=
  (sortStrings l).dedup

/-- Python `str.lower()`. -/
def lowerS (s : String) : String :=
  (lowerL s.toList).asString

/-- `re.sub(r"\s+", " ", ·)`: collapse every maximal whitespace run to a
single space. -/
def collapseWsAux : Bool → List Char → List Char
  | _, [] => []
  | prevSpace, c :: t =>
    if pyIsSpace c then
      if prevSpace then collapseWsAux true t else ' ' :: collapseWsAux true t
    else c :: collapseWsAux false t

def collapseWs (l : List Char) : List Char :=
  collapseWsAux false l

/-- `_normalize_fact(text)`: strip, strip trailing `.!?`, collapse
whitespace runs. -/
def normalizeFact (t : String) : String :=
  (collapseWs (((pyStripList t.toList).reverse.dropWhile
    (fun c => c == '.' || c == '!' || c == '?')).reverse)).asString

/-- `_clamp_confidence(value)`.  Confidence values are modeled as
rationals. -/
def clampConf (v : ℚ) : ℚ :=
  max 0 (min 1 v)

/-- `RelationshipFactInput`. -/
structure RelFactInput where
  fact : String
  tags : List String
  confidence : ℚ
deriving DecidableEq

/-- `RelationshipFact`. -/
structure RelFact where
  fact : String
  normalizedFact : String
  tags : List String
  confidence : ℚ
  firstConfirmed : String
  lastConfirmed : String
  confirmations : Nat
  source : String
deriving DecidableEq

/-- The tag normalization of `upsert_facts`:
`sorted({t.strip().lower() for t in item.tags if t and t.strip()})`. -/
def normTags (tags : List String) : List String :=
  sortedTagSet ((tags.filter (fun t => notBlank t)).map
    (fun t => (lowerL (pyStripList t.toList)).asString))

/-- The comprehension `{f.normalized_fact: f for f in store.facts}`
followed by `.get(key)`: the last fact with the key wins. -/
def byNormGet (store : List RelFact) (key : String) : Option RelFact :=
  store.foldl (fun acc f => if f.normalizedFact == key then some f else acc) none

def replaceFirstMatch (p : RelFact → Bool) (g : RelFact → RelFact) :
    List RelFact → List RelFact
  | [] => []
  | f :: t => if p f then g f :: t else f :: replaceFirstMatch p g t

/-- Python's in-place mutation of the dict-selected fact object: the
last list entry with the key is replaced. -/
def replaceLastMatch (p : RelFact → Bool) (g : RelFact → RelFact)
    (l : List RelFact) : List RelFact :=
  (replaceFirstMatch p g l.reverse).reverse

/-- The updated fact written by the re-confirmation branch of
`upsert_facts` (source formula: `clamp(max(old, clamp(new)) + 0.03)`). -/
def codeUpd (today source : String) (item : RelFactInput) (ex : RelFact) : RelFact :=
  { ex with
    tags := sortedTagSet (ex.tags ++ normTags item.tags),
    lastConfirmed := today,
    confirmations := ex.confirmations + 1,
    confidence := clampConf (max ex.confidence (clampConf item.confidence) + 3 / 100),
    source := if source ≠ "" then source else ex.source }

/-- The update as the claim states it:
`confidence = clamp(max(old, new) + 0.03, 0, 1)` on the raw new
confidence. -/
def claimUpd (today source : String) (item : RelFactInput) (ex : RelFact) : RelFact :=
  { ex with
    tags := sortedTagSet (ex.tags ++ normTags item.tags),
    lastConfirmed := today,
    confirmations := ex.confirmations + 1,
    confidence := clampConf (max ex.confidence item.confidence + 3 / 100),
    source := if source ≠ "" then source else ex.source }

/-- One iteration of the `for item in facts` loop of
`RelationshipMemoryStore.upsert_facts`: returns the updated fact list
and the entry appended to `changed` (if any). -/
def upsertOne (today source : String) (store : List RelFact)
    (item : RelFactInput) : List RelFact × Option RelFact :=
  if normalizeFact item.fact = "" then (store, none)
  else
    match byNormGet store (lowerS (normalizeFact item.fact)) with
    | some ex =>
      (replaceLastMatch
        (fun f => f.normalizedFact == lowerS (normalizeFact item.fact))
        (fun _ => codeUpd today source item ex) store,
       some (codeUpd today source item ex))
    | none =>
      (store ++ [⟨normalizeFact item.fact, lowerS (normalizeFact item.fact),
         normTags item.tags, clampConf item.confidence, today, today, 1, source⟩],
       some ⟨normalizeFact item.fact, lowerS (normalizeFact item.fact),
         normTags item.tags, clampConf item.confidence, today, today, 1, source⟩)

/-- `upsert_facts(facts, source)`: fold `upsertOne` over the input list,
returning the final store and the `changed` list. -/
def upsertFacts (today source : String) (items : List RelFactInput)
    (store : List RelFact) : List RelFact × List RelFact :=
  items.foldl
    (fun acc item =>
      ((upsertOne today source acc.1 item).1,
       acc.2 ++ (upsertOne today source acc.1 item).2.toList))
    (store, [])

theorem replaceFirstMatch_length (p : RelFact → Bool) (g : RelFact → RelFact) :
    ∀ l, (replaceFirstMatch p g l).length = l.length := by
  intro l
  induction l with
  | nil => rfl
  | cons f t ih =>
    rw [replaceFirstMatch]
    by_cases hp : p f
    · rw [if_pos hp]
      simp
    · rw [if_neg hp]
      simp [ih]

theorem clamp_max_clamp (a b : ℚ) (h0 : 0 ≤ a) (h1 : a ≤ 1) :
    clampConf (max a (clampConf b) + 3 / 100) = clampConf (max a b + 3 / 100) := by
  unfold clampConf
  rcases le_total b a with hba | hab
  · have h2 : max 0 (min 1 b) ≤ a := by
      rw [max_le_iff]
      exact ⟨h0, le_trans (min_le_right 1 b) hba⟩
    rw [max_eq_left h2, max_eq_left hba]
  · rcases le_total b 1 with hb1 | h1b
    · have hcb : max 0 (min 1 b) = b := by
        rw [min_eq_right hb1, max_eq_right (le_trans h0 hab)]
      rw [hcb, max_eq_right hab]
    · have hcb : max 0 (min 1 b) = 1 := by
        rw [min_eq_left h1b]
        exact max_eq_right (by norm_num)
      rw [hcb, max_eq_right h1, max_eq_right (le_trans h1 h1b)]
      rw [min_eq_left (by norm_num : (1 : ℚ) ≤ 1 + 3 / 100),
        min_eq_left (by linarith : (1 : ℚ) ≤ b + 3 / 100)]

/-- Claim C7: relationship-memory upsert is keyed on the normalized fact
(whitespace collapsed, trailing punctuation stripped, lowercased).
Re-confirming a fact whose key equals that of a stored entry adds no new
entry: the store keeps its length, the keyed entry gets the union of the
tag sets, `confirmations + 1`, `confidence = clamp(max(old, new) + 0.03, 0, 1)`
and `last_confirmed = today` (for stored confidences in `[0,1]`, where
the claim's formula coincides with the code's
`clamp(max(old, clamp(new)) + 0.03)`).  Consequently, upserting the same
fact twice into an empty store leaves exactly one entry, with
`confirmations ≥ 2`. -/
theorem C7_upsert_keyed_on_normalized_fact (today source : String) :
    (∀ (store : List RelFact) (item : RelFactInput) (ex : RelFact),
      normalizeFact item.fact ≠ "" →
      byNormGet store (lowerS (normalizeFact item.fact)) = some ex →
      0 ≤ ex.confidence → ex.confidence ≤ 1 →
      (upsertOne today source store item).1.length = store.length ∧
      upsertOne today source store item =
        (replaceLastMatch
          (fun f => f.normalizedFact == lowerS (normalizeFact item.fact))
          (fun _ => claimUpd today source item ex) store,
         some (claimUpd today source item ex))) ∧
    (∀ item : RelFactInput, normalizeFact item.fact ≠ "" →
      ((upsertFacts today source [item, item] []).1.length = 1 ∧
       ∀ g ∈ (upsertFacts today source [item, item] []).1, 2 ≤ g.confirmations)) := by
  constructor
  · intro store item ex hn hget h0 h1
    have hupd : codeUpd today source item ex = claimUpd today source item ex := by
      unfold codeUpd claimUpd
      rw [clamp_max_clamp _ _ h0 h1]
    have hrun : upsertOne today source store item =
        (replaceLastMatch
          (fun f => f.normalizedFact == lowerS (normalizeFact item.fact))
          (fun _ => codeUpd today source item ex) store,
         some (codeUpd today source item ex)) := by
      unfold upsertOne
      rw [if_neg hn, hget]
    rw [hrun, hupd]
    refine ⟨?_, rfl⟩
    unfold replaceLastMatch
    rw [List.length_reverse, replaceFirstMatch_length, List.length_reverse]
  · intro item hn
    have h1 : upsertOne today source [] item =
        ([⟨normalizeFact item.fact, lowerS (normalizeFact item.fact),
           normTags item.tags, clampConf item.confidence, today, today, 1, source⟩],
         some ⟨normalizeFact item.fact, lowerS (normalizeFact item.fact),
           normTags item.tags, clampConf item.confidence, today, today, 1, source⟩) := by
      unfold upsertOne
      rw [if_neg hn]
      rfl
    set f0 : RelFact := ⟨normalizeFact item.fact, lowerS (normalizeFact item.fact),
      normTags item.tags, clampConf item.confidence, today, today, 1, source⟩ with hf0
    have hget : byNormGet [f0] (lowerS (normalizeFact item.fact)) = some f0 := by
      unfold byNormGet
      simp [hf0]
    have h2 : upsertOne today source [f0] item =
        ([codeUpd today source item f0], some (codeUpd today source item f0)) := by
      unfold upsertOne
      rw [if_neg hn, hget]
      unfold replaceLastMatch
      simp [replaceFirstMatch, hf0]
    have hfold : (upsertFacts today source [item, item] []).1 =
        [codeUpd today source item f0] := by
      unfold upsertFacts
      simp only [List.foldl_cons, List.foldl_nil, h1]
      rw [h2]
    rw [hfold]
    refine ⟨rfl, ?_⟩
    intro g hg
    rcases List.mem_singleton.mp hg with rfl
    unfold codeUpd
    simp [hf0]

/-- Witness for C7's twice-upsert clause at a concrete fact. -/
theorem C7_upsert_keyed_on_normalized_fact_witness :
    (upsertFacts "2026-10-12" "user_profile_auto"
      [⟨"Likes tea.", [], 7 / 10⟩, ⟨"Likes tea.", [], 7 / 10⟩] []).1.length = 1 :=
  ((C7_upsert_keyed_on_normalized_fact "2026-10-12" "user_profile_auto").2
    ⟨"Likes tea.", [], 7 / 10⟩ (by decide)).1


/-! ## Wire <-> runtime message conversion (`app/agents/session_manager.py`) -/

/-- A JSON value, as handled by Python's `json` module in the multipart
content branch.  Numbers keep their raw token text (the conversions
never inspect them). -/
inductive PyJson where
  | jnull
  | jbool (b : Bool)
  | jnum (raw : String)
  | jstr (s : String)
  | jarr (xs : List PyJson)
  | jobj (fields : List (String × PyJson))

/-- JSON string quoting as done by `json.dumps` (common escapes; other
control characters via `\u00xx`). -/
def jsonQuoteChar (c : Char) : List Char :=
  if c = Char.ofNat 34 then [Char.ofNat 92, Char.ofNat 34]
  else if c = Char.ofNat 92 then [Char.ofNat 92, Char.ofNat 92]
  else if c = '\n' then [Char.ofNat 92, 'n']
  else if c = '\t' then [Char.ofNat 92, 't']
  else if c = '\r' then [Char.ofNat 92, 'r']
  else if c.toNat < 32 then
    [Char.ofNat 92, 'u', '0', '0',
     Nat.digitChar (c.toNat / 16), Nat.digitChar (c.toNat % 16)]
  else [c]

def jsonQuote (s : String) : String :=
  (Char.ofNat 34 :: (s.toList.flatMap jsonQuoteChar) ++ [Char.ofNat 34]).asString

mutual

/-- `json.dumps` with its default separators `", "` and `": "`. -/
def jsonDumps : PyJson → String
  | .jnull => "null"
  | .jbool true => "true"
  | .jbool false => "false"
  | .jnum raw => raw
  | .jstr s => jsonQuote s
  | .jarr xs => "[" ++ jsonDumpsItems xs ++ "]"
  | .jobj fs => "\x7b" ++ jsonDumpsFields fs ++ "\x7d"

def jsonDumpsItems : List PyJson → String
  | [] => ""
  | [x] => jsonDumps x
  | x :: y :: t => jsonDumps x ++ ", " ++ jsonDumpsItems (y :: t)

def jsonDumpsFields : List (String × PyJson) → String
  | [] => ""
  | [(k, v)] => jsonQuote k ++ ": " ++ jsonDumps v
  | (k, v) :: y :: t => jsonQuote k ++ ": " ++ jsonDumps v ++ ", " ++ jsonDumpsFields (y :: t)

end

def jsonSkipWs (l : List Char) : List Char :=
  l.dropWhile (fun c => c == ' ' || c == '\t' || c == '\n' || c == '\r')

def hexVal (c : Char) : Option Nat :=
  if '0' ≤ c ∧ c ≤ '9' then some (c.toNat - 48)
  else if 'a' ≤ c ∧ c ≤ 'f' then some (c.toNat - 87)
  else if 'A' ≤ c ∧ c ≤ 'F' then some (c.toNat - 55)
  else none

/-- Parse a JSON string body after the opening quote (fuel-bounded;
handles the standard escapes, `\uXXXX` for code points below 2^16). -/
def parseJStrBody : Nat → List Char → Option (List Char × List Char)
  | 0, _ => none
  | _, [] => none
  | fuel + 1, c :: t =>
    if c = Char.ofNat 34 then some ([], t)
    else if c = Char.ofNat 92 then
      match t with
      | [] => none
      | e :: t2 =>
        let esc : Option (Char × List Char) :=
          if e = Char.ofNat 34 then some (Char.ofNat 34, t2)
          else if e = Char.ofNat 92 then some (Char.ofNat 92, t2)
          else if e = '/' then some ('/', t2)
          else if e = 'n' then some ('\n', t2)
          else if e = 't' then some ('\t', t2)
          else if e = 'r' then some ('\r', t2)
          else if e = 'b' then some (Char.ofNat 8, t2)
          else if e = 'f' then some (Char.ofNat 12, t2)
          else if e = 'u' then
            match t2 with
            | h1 :: h2 :: h3 :: h4 :: t3 =>
              match hexVal h1, hexVal h2, hexVal h3, hexVal h4 with
              | some a, some b, some c3, some d =>
                some (Char.ofNat (4096 * a + 256 * b + 16 * c3 + d), t3)
              | _, _, _, _ => none
            | _ => none
          else none
        match esc with
        | some (ch, rest) =>
          match parseJStrBody fuel rest with
          | some (body, r) => some (ch :: body, r)
          | none => none
        | none => none
    else
      match parseJStrBody fuel t with
      | some (body, r) => some (c :: body, r)
      | none => none

/-- Maximal run of JSON number-token characters. -/
def jsonNumChar (c : Char) : Bool :=
  c.isDigit || c == '-' || c == '+' || c == '.' || c == 'e' || c == 'E'

mutual

/-- Fuel-bounded recursive-descent JSON parser (model of `json.loads`). -/
def parseJVal : Nat → List Char → Option (PyJson × List Char)
  | 0, _ => none
  | fuel + 1, l =>
    match jsonSkipWs l with
    | [] => none
    | c :: t =>
      if c = Char.ofNat 34 then
        match parseJStrBody (t.length + 1) t with
        | some (body, r) => some (.jstr body.asString, r)
        | none => none
      else if c = '[' then parseJArr fuel t
      else if c = Char.ofNat 123 then parseJObj fuel t
      else if "null".toList.isPrefixOf (c :: t) then some (.jnull, (c :: t).drop 4)
      else if "true".toList.isPrefixOf (c :: t) then some (.jbool true, (c :: t).drop 4)
      else if "false".toList.isPrefixOf (c :: t) then some (.jbool false, (c :: t).drop 5)
      else if jsonNumChar c then
        some (.jnum ((c :: t).takeWhile jsonNumChar).asString, (c :: t).dropWhile jsonNumChar)
      else none

def parseJArr : Nat → List Char → Option (PyJson × List Char)
  | 0, _ => none
  | fuel + 1, l =>
    match jsonSkipWs l with
    | ']' :: r => some (.jarr [], r)
    | l' =>
      match parseJVal fuel l' with
      | some (v, r) =>
        match parseJArrRest fuel r with
        | some (vs, r2) => some (.jarr (v :: vs), r2)
        | none => none
      | none => none

def parseJArrRest : Nat → List Char → Option (List PyJson × List Char)
  | 0, _ => none
  | fuel + 1, l =>
    match jsonSkipWs l with
    | ']' :: r => some ([], r)
    | ',' :: r =>
      match parseJVal fuel r with
      | some (v, r2) =>
        match parseJArrRest fuel r2 with
        | some (vs, r3) => some (v :: vs, r3)
        | none => none
      | none => none
    | _ => none

def parseJObj : Nat → List Char → Option (PyJson × List Char)
  | 0, _ => none
  | fuel + 1, l =>
    match jsonSkipWs l with
    | c :: r =>
      if c = Char.ofNat 125 then some (.jobj [], r)
      else
        match parseJMember fuel (c :: r) with
        | some (kv, r2) =>
          match parseJObjRest fuel r2 with
          | some (kvs, r3) => some (.jobj (kv :: kvs), r3)
          | none => none
        | none => none
    | [] => none

def parseJMember : Nat → List Char → Option ((String × PyJson) × List Char)
  | 0, _ => none
  | fuel + 1, l =>
    match jsonSkipWs l with
    | c :: t =>
      if c = Char.ofNat 34 then
        match parseJStrBody (t.length + 1) t with
        | some (body, r) =>
          match jsonSkipWs r with
          | ':' :: r2 =>
            match parseJVal fuel r2 with
            | some (v, r3) => some ((body.asString, v), r3)
            | none => none
          | _ => none
        | none => none
      else none
    | [] => none

def parseJObjRest : Nat → List Char → Option (List (String × PyJson) × List Char)
  | 0, _ => none
  | fuel + 1, l =>
    match jsonSkipWs l with
    | c :: r =>
      if c = Char.ofNat 125 then some ([], r)
      else if c = ',' then
        match parseJMember fuel r with
        | some (kv, r2) =>
          match parseJObjRest fuel r2 with
          | some (kvs, r3) => some (kv :: kvs, r3)
          | none => none
        | none => none
      else none
    | [] => none

end

/-- `json.loads` for the user-content branch: the input starts with `[`,
so a successful parse is a JSON array consuming the whole input. -/
def pyLoadsArr (s : String) : Option (List PyJson) :=
  match parseJVal (s.length + 2) s.toList with
  | some (.jarr xs, rest) => if (jsonSkipWs rest).isEmpty then some xs else none
  | _ => none

/-- `content.startswith('[')`. -/
def startsWithBracketL (s : String) : Bool :=
  match s.toList with
  | c :: _ => c == '['
  | [] => false

/-- Runtime message content: a plain string or a multipart list. -/
inductive PyContent where
  | cstr (s : String)
  | clist (xs : List PyJson)

/-- A LangChain runtime message as far as the two converters read it. -/
inductive LCMessage where
  | humanLC (content : PyContent) (ak : List (String × String))
  | aiLC (content : PyContent) (toolCalls : List ToolCallEntry) (ak : List (String × String))
  | systemLC (content : PyContent) (ak : List (String × String))
  | toolLC (content : PyContent) (toolCallId : Option String) (name : Option String)
      (ak : List (String × String))

/-- `MessageSchema` (the wire form), without the wall-clock `timestamp`
metadata field, which is freshly generated on every construction and is
no part of the payload round-trip. -/
structure WireMessage where
  role : String
  content : String
  toolCalls : Option (List ToolCallEntry)
  toolCallId : Option String
  toolName : Option String
  additionalKwargs : List (String × String)
deriving DecidableEq

/-- The placeholder filter of the `"ai"` branch:
`content.strip('() ').lower() in ('empty response', 'empty')`. -/
def aiPlaceholder (c : String) : Bool :=
  let v := lowerS (pyStripSet ['(', ')', ' '] c)
  v == "empty response" || v == "empty"

/-- `SessionManager.dict_to_langchain(msg)`. -/
def dictToLangchain (m : WireMessage) : LCMessage :=
  let contentOpt : Option String := if notBlank m.content then some m.content else none
  if m.role = "user" then
    match contentOpt with
    | some c =>
      if startsWithBracketL c then
        match pyLoadsArr c with
        | some [] => .humanLC (.cstr "(continued)") m.additionalKwargs
        | some xs => .humanLC (.clist xs) m.additionalKwargs
        | none => .humanLC (.cstr c) m.additionalKwargs
      else .humanLC (.cstr c) m.additionalKwargs
    | none => .humanLC (.cstr "(continued)") m.additionalKwargs
  else if m.role = "ai" then
    let tc := m.toolCalls.getD []
    if !tc.isEmpty && contentOpt.isNone then
      .aiLC (.cstr "(calling tools)") tc m.additionalKwargs
    else
      let c2 : Option String :=
        match contentOpt with
        | some c => if aiPlaceholder c then none else some c
        | none => none
      .aiLC (.cstr (c2.getD "[no response was generated]")) tc m.additionalKwargs
  else if m.role = "system" then
    .systemLC (.cstr (contentOpt.getD "(system)")) m.additionalKwargs
  else if m.role = "tool" then
    .toolLC (.cstr (contentOpt.getD "(empty result)")) m.toolCallId
      (some (match m.toolName with
             | some n => if n ≠ "" then n else "tool"
             | none => "tool"))
      m.additionalKwargs
  else
    .humanLC (.cstr (contentOpt.getD "(continued)")) m.additionalKwargs

/-- Content serialization of `langchain_to_dict`: list content via
`json.dumps`, string content via `str(raw) if raw else ""` (the identity
on strings). -/
def serializeContent : PyContent → String
  | .clist xs => jsonDumps (.jarr xs)
  | .cstr s => if s = "" then "" else s

/-- `SessionManager.langchain_to_dict(msg)`. -/
def langchainToDict (msg : LCMessage) : WireMessage :=
  match msg with
  | .humanLC c ak => ⟨"user", serializeContent c, none, none, none, ak⟩
  | .aiLC c tc ak => ⟨"ai", serializeContent c, some tc, none, none, ak⟩
  | .systemLC c ak => ⟨"system", serializeContent c, none, none, none, ak⟩
  | .toolLC c tid n ak => ⟨"tool", serializeContent c, none, tid, n, ak⟩

/-- Claim C8, counterexample: the stored `"ai"` wire message with empty
content does not round-trip: it comes back with the placeholder content
`"[no response was generated]"` and `tool_calls = []` instead of
`None`. -/
theorem C8_roundtrip_counterexample :
    ¬(langchainToDict (dictToLangchain ⟨"ai", "", none, none, none, []⟩) =
      (⟨"ai", "", none, none, none, []⟩ : WireMessage)) := by
  decide

/-- Canonical wire messages: content non-blank, per-role placeholder and
shape conditions under which the converters are mutually inverse. -/
def canonicalWire (m : WireMessage) : Bool :=
  notBlank m.content &&
  (if m.role = "user" then
    !(startsWithBracketL m.content) && m.toolCalls.isNone && m.toolCallId.isNone &&
      m.toolName.isNone
  else if m.role = "ai" then
    m.toolCalls.isSome && !(aiPlaceholder m.content) && m.toolCallId.isNone &&
      m.toolName.isNone
  else if m.role = "system" then
    m.toolCalls.isNone && m.toolCallId.isNone && m.toolName.isNone
  else if m.role = "tool" then
    m.toolCalls.isNone &&
      (match m.toolName with
       | some n => !(n = "")
       | none => false)
  else false)

/-- Claim C8 (amended): for every wire message of the four roles in
canonical form — non-blank plain-text content, user content not
JSON-list-shaped, `tool_calls` stored (possibly `[]`) exactly for `"ai"`
messages, no `"ai"` placeholder content, and a non-empty `tool_name` on
`"tool"` messages — converting to the runtime message and back is the
identity: `langchain_to_dict(dict_to_langchain(m)) = m`.  (Multipart
list content is re-serialized through `json.dumps`, so it round-trips
only up to JSON normal form and is excluded.) -/
theorem C8_roundtrip_canonical (m : WireMessage) (h : canonicalWire m = true) :
    langchainToDict (dictToLangchain m) = m := by
  obtain ⟨role, content, toolCalls, toolCallId, toolName, ak⟩ := m
  unfold canonicalWire at h
  simp only [Bool.and_eq_true, and_assoc] at h
  obtain ⟨hnb, hrole⟩ := h
  have hcs : ¬(content = "") := by
    intro he
    rw [he] at hnb
    exact absurd hnb (by decide)
  by_cases hu : role = "user"
  · subst hu
    rw [if_pos rfl] at hrole
    simp only [Bool.and_eq_true, and_assoc, Bool.not_eq_true',
      Option.isNone_iff_eq_none] at hrole
    obtain ⟨hst, htc, hid, hnm⟩ := hrole
    subst htc; subst hid; subst hnm
    simp [dictToLangchain, langchainToDict, serializeContent, hnb, hst, hcs]
  · by_cases ha : role = "ai"
    · subst ha
      rw [if_neg (by decide), if_pos rfl] at hrole
      simp only [Bool.and_eq_true, and_assoc, Bool.not_eq_true',
        Option.isNone_iff_eq_none, Option.isSome_iff_exists] at hrole
      obtain ⟨⟨tc, htc⟩, hph, hid, hnm⟩ := hrole
      subst htc; subst hid; subst hnm
      simp [dictToLangchain, langchainToDict, serializeContent, hnb, hph, hcs]
    · by_cases hsy : role = "system"
      · subst hsy
        rw [if_neg (by decide), if_neg (by decide), if_pos rfl] at hrole
        simp only [Bool.and_eq_true, and_assoc, Option.isNone_iff_eq_none] at hrole
        obtain ⟨htc, hid, hnm⟩ := hrole
        subst htc; subst hid; subst hnm
        simp [dictToLangchain, langchainToDict, serializeContent, hnb, hcs]
      · by_cases hto : role = "tool"
        · subst hto
          rw [if_neg (by decide), if_neg (by decide), if_neg (by decide),
            if_pos rfl] at hrole
          simp only [Bool.and_eq_true, and_assoc, Option.isNone_iff_eq_none] at hrole
          obtain ⟨htc, hnm⟩ := hrole
          subst htc
          rcases toolName with _ | n
          · exact absurd hnm (by decide)
          · simp only [Bool.not_eq_true'] at hnm
            have hne : ¬(n = "") := by
              intro he
              rw [he] at hnm
              exact absurd hnm (by decide)
            simp [dictToLangchain, langchainToDict, serializeContent, hnb, hcs, hne]
        · rw [if_neg hu, if_neg ha, if_neg hsy, if_neg hto] at hrole
          exact absurd hrole (by decide)

/-- Witness for C8 at a concrete canonical user message. -/
theorem C8_roundtrip_canonical_witness :
    langchainToDict (dictToLangchain ⟨"user", "hello", none, none, none, []⟩) =
      (⟨"user", "hello", none, none, none, []⟩ : WireMessage) :=
  C8_roundtrip_canonical ⟨"user", "hello", none, none, none, []⟩ (by decide)

/-! ## Message sanitization (`app/agents/context_manager.py`) -/

/-- A message as `ContextManager.sanitize_messages` inspects it: role,
text content, tool calls (an `AIMessage` with empty `tool_calls` is a
plain assistant message), and the `ToolMessage` fields. -/
inductive SMsg where
  | systemS (content : String)
  | humanS (content : String)
  | aiS (content : String) (toolCalls : List ToolCallEntry)
  | toolS (content : String) (toolCallId : Option String) (name : Option String)
deriving DecidableEq

def isSystemS : SMsg → Bool
  | .systemS _ => true
  | _ => false

def isHumanS : SMsg → Bool
  | .humanS _ => true
  | _ => false

def isToolS : SMsg → Bool
  | .toolS _ _ _ => true
  | _ => false

def isPlainAIS : SMsg → Bool
  | .aiS _ [] => true
  | _ => false

def isAiTCS : SMsg → Bool
  | .aiS _ (_ :: _) => true
  | _ => false

def sContent : SMsg → String
  | .systemS c => c
  | .humanS c => c
  | .aiS c _ => c
  | .toolS c _ _ => c

/-- Leading-system fix of `sanitize_messages` (lines 172-178): an empty
system message becomes `SystemMessage("(system)")`. -/
def fixSystemS (m : SMsg) : SMsg :=
  match m with
  | .systemS c => if notBlank c then .systemS c else .systemS "(system)"
  | _ => m

/-- Tool-run content fix (lines 204-208): empty tool content becomes
`"(empty result)"`. -/
def fixToolS (m : SMsg) : SMsg :=
  match m with
  | .toolS c tid n => if notBlank c then .toolS c tid n else .toolS "(empty result)" tid n
  | _ => m

/-- Content patch for a kept tool-calling assistant (lines 211-215). -/
def patchAIS (c : String) (tcs : List ToolCallEntry) : SMsg :=
  if notBlank c then .aiS c tcs else .aiS "(calling tools)" tcs

/-- Final pass of `sanitize_messages` (lines 245-264): per-role
placeholder for empty content. -/
def finalFixS (m : SMsg) : SMsg :=
  if notBlank (sContent m) then m
  else
    match m with
    | .humanS _ => .humanS "(continued)"
    | .aiS _ [] => .aiS "[processing]" []
    | .aiS _ (tc :: tcs) => .aiS "(calling tools)" (tc :: tcs)
    | .systemS _ => .systemS "(system)"
    | .toolS _ tid n => .toolS "(empty result)" tid n

/-- The body loop of `sanitize_messages` (lines 183-239), with the
output accumulator kept in reverse order (`sanitized[-1]` is the head of
`acc`).  The fuel argument makes the recursion structural; callers pass
the body length, which the loop never exceeds.  (The `tool_call_ids` set
computed on line 199 is never used and is omitted.)  A tool-calling
assistant is emitted together with its immediately-following tool run
when one exists; otherwise its `tool_calls` are stripped — note that the
stripped assistant is appended without the consecutive-assistant merge
check. -/
def saniLoopF : Nat → List SMsg → List SMsg → List SMsg
  | _, acc, [] => acc.reverse
  | 0, acc, l => acc.reverse ++ l
  | fuel + 1, acc, .toolS c tid n :: rest =>
    match acc with
    | .aiS _ (_ :: _) :: _ => saniLoopF fuel (.toolS c tid n :: acc) rest
    | _ => saniLoopF fuel acc rest
  | fuel + 1, acc, .aiS c (tc :: tcs) :: rest =>
    let tms := (rest.takeWhile isToolS).map fixToolS
    if tms.isEmpty then
      saniLoopF fuel (.aiS (if c = "" then "(tool call attempted)" else c) [] :: acc) rest
    else
      saniLoopF fuel (tms.reverse ++ patchAIS c (tc :: tcs) :: acc) (rest.dropWhile isToolS)
  | fuel + 1, acc, .aiS c [] :: rest =>
    let c' := if notBlank c then c else "(empty response)"
    match acc with
    | .aiS pc [] :: accT => saniLoopF fuel (.aiS (pc ++ "\n" ++ c') [] :: accT) rest
    | _ => saniLoopF fuel (.aiS c' [] :: acc) rest
  | fuel + 1, acc, m :: rest => saniLoopF fuel (m :: acc) rest

/-- Lines 242-243 of `sanitize_messages`: if the sanitized body is
non-empty and does not start with a human message, a synthetic
`HumanMessage("(continued conversation)")` is prepended. -/
def insertLeadingHuman (s : List SMsg) : List SMsg :=
  match s with
  | [] => []
  | m :: _ => if isHumanS m then s else .humanS "(continued conversation)" :: s

/-- `ContextManager.sanitize_messages(messages)`: leading system block
(content-fixed) + sanitized body (human-fronted), with the final
non-empty-content pass over everything. -/
def sanitizeMessages (messages : List SMsg) : List SMsg :=
  if messages.isEmpty then messages
  else
    ((messages.takeWhile isSystemS).map fixSystemS ++
      insertLeadingHuman
        (saniLoopF (messages.dropWhile isSystemS).length []
          (messages.dropWhile isSystemS))).map finalFixS

/-- No two adjacent messages are both plain (tool-call-free) assistant
messages. -/
def noConsecutivePlainAssistant : List SMsg → Bool
  | [] => true
  | .aiS _ [] :: .aiS _ [] :: _ => false
  | _ :: rest => noConsecutivePlainAssistant rest

/-- Claim C1: the sanitizer is documented ("No consecutive AIMessages
(merge content if needed)") and specified to merge adjacent plain
assistant messages, but the tool-calls-stripping branch (line 222 of
`context_manager.py`) appends the stripped assistant without the merge
check: on the input `[Assistant("a"), Assistant("b", tool_calls=[...])]`
(no Tool message follows), the output contains two adjacent plain
assistant messages instead of the merged `Assistant("a\nb")`. -/
theorem C1_sanitize_consecutive_assistants_bug :
    sanitizeMessages [.aiS "a" [], .aiS "b" [⟨"t", "x", some "t1"⟩]] =
      [.humanS "(continued conversation)", .aiS "a" [], .aiS "b" []] ∧
    noConsecutivePlainAssistant
      (sanitizeMessages [.aiS "a" [], .aiS "b" [⟨"t", "x", some "t1"⟩]]) = false := by
  constructor
  · decide
  · decide

/-- Claim C3, counterexample: `sanitize` is not idempotent.  On
`[Assistant("a"), Assistant("b", tool_calls=[...])]` the first pass
strips the tool calls and leaves two adjacent plain assistants; the
second pass merges them. -/
theorem C3_sanitize_not_idempotent_counterexample :
    ¬(sanitizeMessages (sanitizeMessages [.aiS "a" [], .aiS "b" [⟨"t", "x", some "t1"⟩]]) =
      sanitizeMessages [.aiS "a" [], .aiS "b" [⟨"t", "x", some "t1"⟩]]) := by
  decide

/-- States of the shape automaton for sanitized message bodies:
`st0` after a human/system message or a completed tool run, `st1` after
a plain assistant message, `st2` inside/after a tool run, `st3`
immediately after a tool-calling assistant (a tool message must follow),
`stDead` after any shape violation. -/
inductive SanSt where
  | st0
  | st1
  | st2
  | st3
  | stDead
deriving DecidableEq

def stepSt (s : SanSt) (m : SMsg) : SanSt :=
  match s, m with
  | .stDead, _ => .stDead
  | s, .systemS _ => if s = .st3 then .stDead else .st0
  | s, .humanS _ => if s = .st3 then .stDead else .st0
  | s, .aiS _ [] => if s = .st1 ∨ s = .st3 then .stDead else .st1
  | s, .aiS _ (_ :: _) => if s = .st3 then .stDead else .st3
  | s, .toolS _ _ _ => if s = .st2 ∨ s = .st3 then .st2 else .stDead

def foldSt (s : SanSt) (l : List SMsg) : SanSt :=
  l.foldl stepSt s

def acceptSt : SanSt → Bool
  | .st0 => true
  | .st1 => true
  | .st2 => true
  | .st3 => false
  | .stDead => false

def optIsPlainAI : Option SMsg → Bool
  | some m => isPlainAIS m
  | none => false

def optIsAiTC : Option SMsg → Bool
  | some m => isAiTCS m
  | none => false

def optIsTool : Option SMsg → Bool
  | some m => isToolS m
  | none => false

/-- Canonical sanitized lists: a leading system block with non-blank
contents, then either nothing or a body starting with a human message,
with non-blank contents, whose shape the automaton accepts (tool runs
only after tool-calling assistants, no adjacent plain assistants, no
dangling tool-calling assistant). `sanitize` is the identity on these. -/
def canonMsgs (ys : List SMsg) : Bool :=
  (ys.takeWhile isSystemS).all (fun m => notBlank (sContent m)) &&
  (ys.dropWhile isSystemS).all (fun m => notBlank (sContent m)) &&
  (match ys.dropWhile isSystemS with
   | [] => true
   | m :: _ => isHumanS m) &&
  acceptSt (foldSt .st0 (ys.dropWhile isSystemS))

/-- The list starts with a tool message. -/
def headIsTool : List SMsg → Bool
  | .toolS _ _ _ :: _ => true
  | _ => false

/-- Every tool-calling assistant message is immediately followed by a
tool message. -/
def toolCallsFollowed : List SMsg → Bool
  | [] => true
  | m :: rest => (if isAiTCS m then headIsTool rest else true) && toolCallsFollowed rest

theorem stepSt_dead (m : SMsg) : stepSt .stDead m = .stDead := by
  cases m with
  | aiS c tcs => cases tcs <;> rfl
  | systemS c => rfl
  | humanS c => rfl
  | toolS c tid n => rfl

theorem foldSt_dead (l : List SMsg) : foldSt .stDead l = .stDead := by
  induction l with
  | nil => rfl
  | cons m t ih =>
    show foldSt (stepSt .stDead m) t = .stDead
    rw [stepSt_dead]
    exact ih

theorem foldSt_cons (s : SanSt) (m : SMsg) (l : List SMsg) :
    foldSt s (m :: l) = foldSt (stepSt s m) l := rfl

theorem foldSt_append (s : SanSt) (a b : List SMsg) :
    foldSt s (a ++ b) = foldSt (foldSt s a) b :=
  List.foldl_append _ _ _ _

theorem stepSt_finalFix (s : SanSt) (m : SMsg) :
    stepSt s (finalFixS m) = stepSt s m := by
  unfold finalFixS
  by_cases h : notBlank (sContent m) = true
  · rw [if_pos h]
  · rw [if_neg h]
    cases m with
    | systemS c => cases s <;> rfl
    | humanS c => cases s <;> rfl
    | aiS c tcs => cases tcs <;> cases s <;> rfl
    | toolS c tid n => cases s <;> rfl

theorem foldSt_map_finalFix (l : List SMsg) :
    ∀ s, foldSt s (l.map finalFixS) = foldSt s l := by
  induction l with
  | nil => intro s; rfl
  | cons m t ih =>
    intro s
    rw [List.map_cons, foldSt_cons, foldSt_cons, stepSt_finalFix]
    exact ih _

theorem finalFixS_notBlank (m : SMsg) :
    notBlank (sContent (finalFixS m)) = true := by
  unfold finalFixS
  by_cases h : notBlank (sContent m) = true
  · rw [if_pos h]; exact h
  · rw [if_neg h]
    cases m with
    | systemS c => exact (by decide : notBlank (sContent (SMsg.systemS "(system)")) = true)
    | humanS c => exact (by decide : notBlank (sContent (SMsg.humanS "(continued)")) = true)
    | aiS c tcs =>
      cases tcs with
      | nil => exact (by decide : notBlank (sContent (SMsg.aiS "[processing]" [])) = true)
      | cons tc tcs' =>
        show notBlank (sContent (SMsg.aiS "(calling tools)" (tc :: tcs'))) = true
        exact (by decide : notBlank "(calling tools)" = true)
    | toolS c tid n =>
      show notBlank (sContent (SMsg.toolS "(empty result)" tid n)) = true
      exact (by decide : notBlank "(empty result)" = true)

theorem finalFixS_id (m : SMsg) (h : notBlank (sContent m) = true) :
    finalFixS m = m := by
  unfold finalFixS
  rw [if_pos h]

theorem map_finalFix_id (l : List SMsg)
    (h : l.all (fun m => notBlank (sContent m)) = true) :
    l.map finalFixS = l := by
  induction l with
  | nil => rfl
  | cons m t ih =>
    rw [List.all_cons, Bool.and_eq_true] at h
    rw [List.map_cons, finalFixS_id m h.1, ih h.2]

theorem fixToolS_id (m : SMsg) (h : notBlank (sContent m) = true) :
    fixToolS m = m := by
  cases m with
  | toolS c tid n =>
    show (if notBlank c = true then SMsg.toolS c tid n else SMsg.toolS "(empty result)" tid n) =
      SMsg.toolS c tid n
    have h' : notBlank c = true := h
    rw [if_pos h']
  | systemS c => rfl
  | humanS c => rfl
  | aiS c tcs => rfl

theorem fixSystemS_id (m : SMsg) (h : notBlank (sContent m) = true) :
    fixSystemS m = m := by
  cases m with
  | systemS c =>
    show (if notBlank c = true then SMsg.systemS c else SMsg.systemS "(system)") =
      SMsg.systemS c
    have h' : notBlank c = true := h
    rw [if_pos h']
  | humanS c => rfl
  | aiS c tcs => rfl
  | toolS c tid n => rfl

theorem fixSystemS_system (m : SMsg) (h : isSystemS m = true) :
    isSystemS (fixSystemS m) = true ∧ notBlank (sContent (fixSystemS m)) = true := by
  cases m with
  | systemS c =>
    show isSystemS (if notBlank c = true then SMsg.systemS c else SMsg.systemS "(system)") = true ∧
      notBlank (sContent (if notBlank c = true then SMsg.systemS c else SMsg.systemS "(system)")) = true
    by_cases hc : notBlank c = true
    · rw [if_pos hc]
      exact ⟨rfl, hc⟩
    · rw [if_neg hc]
      exact ⟨rfl, by decide⟩
  | humanS c => simp [isSystemS] at h
  | aiS c tcs => simp [isSystemS] at h
  | toolS c tid n => simp [isSystemS] at h

theorem finalFixS_system (m : SMsg) : isSystemS (finalFixS m) = isSystemS m := by
  unfold finalFixS
  by_cases h : notBlank (sContent m) = true
  · rw [if_pos h]
  · rw [if_neg h]
    cases m with
    | systemS c => rfl
    | humanS c => rfl
    | aiS c tcs => cases tcs <;> rfl
    | toolS c tid n => rfl

theorem finalFixS_human (m : SMsg) : isHumanS (finalFixS m) = isHumanS m := by
  unfold finalFixS
  by_cases h : notBlank (sContent m) = true
  · rw [if_pos h]
  · rw [if_neg h]
    cases m with
    | systemS c => rfl
    | humanS c => rfl
    | aiS c tcs => cases tcs <;> rfl
    | toolS c tid n => rfl

theorem fixToolS_tool (m : SMsg) : isToolS (fixToolS m) = isToolS m := by
  cases m with
  | toolS c tid n =>
    show isToolS (if notBlank c = true then SMsg.toolS c tid n else SMsg.toolS "(empty result)" tid n) =
      isToolS (SMsg.toolS c tid n)
    by_cases h : notBlank c = true
    · rw [if_pos h]
    · rw [if_neg h]
      rfl
  | systemS c => rfl
  | humanS c => rfl
  | aiS c tcs => rfl

theorem foldSt_toolrun2 (l : List SMsg) (h : l.all isToolS = true) :
    foldSt .st2 l = .st2 := by
  induction l with
  | nil => rfl
  | cons m t ih =>
    rw [List.all_cons, Bool.and_eq_true] at h
    obtain ⟨h1, h2⟩ := h
    rw [foldSt_cons]
    have hst : stepSt .st2 m = .st2 := by
      cases m with
      | toolS c tid n => rfl
      | systemS c => simp [isToolS] at h1
      | humanS c => simp [isToolS] at h1
      | aiS c tcs => simp [isToolS] at h1
    rw [hst]
    exact ih h2

theorem foldSt_toolrun3 (l : List SMsg) (h : l.all isToolS = true) (hne : l ≠ []) :
    foldSt .st3 l = .st2 := by
  cases l with
  | nil => exact absurd rfl hne
  | cons m t =>
    rw [List.all_cons, Bool.and_eq_true] at h
    obtain ⟨h1, h2⟩ := h
    rw [foldSt_cons]
    have hst : stepSt .st3 m = .st2 := by
      cases m with
      | toolS c tid n => rfl
      | systemS c => simp [isToolS] at h1
      | humanS c => simp [isToolS] at h1
      | aiS c tcs => simp [isToolS] at h1
    rw [hst]
    exact foldSt_toolrun2 t h2

theorem takeWhile_all {α : Type} (p : α → Bool) (l : List α) :
    (l.takeWhile p).all p = true := by
  induction l with
  | nil => rfl
  | cons m t ih =>
    rw [List.takeWhile]
    cases hp : p m
    · rfl
    · rw [List.all_cons, Bool.and_eq_true]
      exact ⟨hp, ih⟩

theorem all_takeWhile_of_all {α : Type} (p q : α → Bool) (l : List α)
    (h : l.all q = true) : (l.takeWhile p).all q = true := by
  induction l with
  | nil => rfl
  | cons m t ih =>
    rw [List.all_cons, Bool.and_eq_true] at h
    rw [List.takeWhile]
    cases hp : p m
    · rfl
    · rw [List.all_cons, Bool.and_eq_true]
      exact ⟨h.1, ih h.2⟩

theorem all_dropWhile_of_all {α : Type} (p q : α → Bool) (l : List α)
    (h : l.all q = true) : (l.dropWhile p).all q = true := by
  induction l with
  | nil => rfl
  | cons m t ih =>
    rw [List.all_cons, Bool.and_eq_true] at h
    rw [List.dropWhile]
    cases hp : p m
    · rw [List.all_cons, Bool.and_eq_true]
      exact ⟨h.1, h.2⟩
    · exact ih h.2

theorem dropWhile_head_false {α : Type} (p : α → Bool) (l : List α) :
    ∀ x, (l.dropWhile p).head? = some x → p x = false := by
  induction l with
  | nil => intro x h; exact absurd h (by simp)
  | cons m t ih =>
    intro x h
    rw [List.dropWhile] at h
    cases hp : p m
    · rw [hp] at h
      simp only [List.head?_cons, Option.some.injEq] at h
      rw [← h]
      exact hp
    · rw [hp] at h
      exact ih x h

theorem lengthDropWhileLe {α : Type} (p : α → Bool) (l : List α) :
    (l.dropWhile p).length ≤ l.length := by
  induction l with
  | nil => exact le_refl _
  | cons m t ih =>
    rw [List.dropWhile]
    cases hp : p m
    · exact le_refl _
    · exact le_trans ih (by simp)

theorem tcf_tail (m : SMsg) (rest : List SMsg)
    (h : toolCallsFollowed (m :: rest) = true) : toolCallsFollowed rest = true := by
  rw [toolCallsFollowed, Bool.and_eq_true] at h
  exact h.2

theorem tcf_dropWhile (p : SMsg → Bool) (l : List SMsg)
    (h : toolCallsFollowed l = true) : toolCallsFollowed (l.dropWhile p) = true := by
  induction l with
  | nil => exact h
  | cons m t ih =>
    rw [List.dropWhile]
    cases hp : p m
    · exact h
    · exact ih (tcf_tail m t h)

theorem head_rev_tool (l X : List SMsg) (hall : l.all isToolS = true) (hne : l ≠ []) :
    ∃ y, (l.reverse ++ X).head? = some y ∧ isToolS y = true := by
  have hrne : l.reverse ≠ [] := by
    intro h
    exact hne (by simpa using congrArg List.reverse h)
  obtain ⟨y, ys, hy⟩ := List.exists_cons_of_ne_nil hrne
  refine ⟨y, ?_, ?_⟩
  · rw [hy]
    rfl
  · have hmem : y ∈ l.reverse := by rw [hy]; exact List.mem_cons_self _ _
    rw [List.mem_reverse] at hmem
    exact List.all_eq_true.mp hall y hmem

theorem tool_not_plain (y : SMsg) (h : isToolS y = true) :
    isPlainAIS y = false ∧ isAiTCS y = false := by
  cases y with
  | toolS c tid n => exact ⟨rfl, rfl⟩
  | systemS c => simp [isToolS] at h
  | humanS c => simp [isToolS] at h
  | aiS c tcs => simp [isToolS] at h

theorem map_fixTool_id (l : List SMsg)
    (h : l.all (fun m => notBlank (sContent m)) = true) :
    l.map fixToolS = l := by
  induction l with
  | nil => rfl
  | cons m t ih =>
    rw [List.all_cons, Bool.and_eq_true] at h
    rw [List.map_cons, fixToolS_id m h.1, ih h.2]

theorem map_fixSystem_id (l : List SMsg)
    (h : l.all (fun m => notBlank (sContent m)) = true) :
    l.map fixSystemS = l := by
  induction l with
  | nil => rfl
  | cons m t ih =>
    rw [List.all_cons, Bool.and_eq_true] at h
    rw [List.map_cons, fixSystemS_id m h.1, ih h.2]

theorem map_fixTool_all_tool (l : List SMsg) (h : l.all isToolS = true) :
    (l.map fixToolS).all isToolS = true := by
  induction l with
  | nil => rfl
  | cons m t ih =>
    rw [List.all_cons, Bool.and_eq_true] at h
    rw [List.map_cons, List.all_cons, Bool.and_eq_true, fixToolS_tool]
    exact ⟨h.1, ih h.2⟩

theorem saniLoopF_tool_drop (n : Nat) (acc : List SMsg) (c : String)
    (tid nm : Option String) (rest : List SMsg)
    (haitc : optIsAiTC acc.head? = false) :
    saniLoopF (n + 1) acc (.toolS c tid nm :: rest) = saniLoopF n acc rest := by
  cases acc with
  | nil => rfl
  | cons a accT =>
    cases a with
    | aiS pc ptcs =>
      cases ptcs with
      | nil => rfl
      | cons x xs => exact absurd haitc (by simp [optIsAiTC, isAiTCS])
    | systemS pc => rfl
    | humanS pc => rfl
    | toolS pc pt pn => rfl

theorem saniLoopF_plain_append (n : Nat) (acc : List SMsg) (c : String)
    (rest : List SMsg) (hplain : optIsPlainAI acc.head? = false) :
    saniLoopF (n + 1) acc (.aiS c [] :: rest) =
      saniLoopF n (.aiS (if notBlank c then c else "(empty response)") [] :: acc) rest := by
  cases acc with
  | nil => rfl
  | cons a accT =>
    cases a with
    | aiS pc ptcs =>
      cases ptcs with
      | nil => exact absurd hplain (by simp [optIsPlainAI, isPlainAIS])
      | cons x xs => rfl
    | systemS pc => rfl
    | humanS pc => rfl
    | toolS pc pt pn => rfl

theorem saniLoopF_plain_merge (n : Nat) (pc : String) (accT : List SMsg)
    (c : String) (rest : List SMsg) :
    saniLoopF (n + 1) (.aiS pc [] :: accT) (.aiS c [] :: rest) =
      saniLoopF n
        (.aiS (pc ++ "\n" ++ (if notBlank c then c else "(empty response)")) [] :: accT)
        rest := rfl

theorem saniLoopF_aitc_run (n : Nat) (acc : List SMsg) (c : String)
    (tc : ToolCallEntry) (tcs : List ToolCallEntry) (rest : List SMsg)
    (hne : rest.takeWhile isToolS ≠ []) :
    saniLoopF (n + 1) acc (.aiS c (tc :: tcs) :: rest) =
      saniLoopF n
        (((rest.takeWhile isToolS).map fixToolS).reverse ++
          patchAIS c (tc :: tcs) :: acc)
        (rest.dropWhile isToolS) := by
  have hred : saniLoopF (n + 1) acc (.aiS c (tc :: tcs) :: rest) =
      (if ((rest.takeWhile isToolS).map fixToolS).isEmpty then
        saniLoopF n (.aiS (if c = "" then "(tool call attempted)" else c) [] :: acc) rest
      else
        saniLoopF n
          (((rest.takeWhile isToolS).map fixToolS).reverse ++
            patchAIS c (tc :: tcs) :: acc)
          (rest.dropWhile isToolS)) := rfl
  rw [hred, if_neg ?hcond]
  case hcond =>
    intro hemp
    rw [List.isEmpty_iff, List.map_eq_nil_iff] at hemp
    exact hne hemp

/-- Identity lemma: on an already-canonical body (non-blank contents,
shape accepted by the automaton from a compatible entry state), the body
loop reproduces its input. -/
theorem saniLoopF_id :
    ∀ fuel body acc s,
      body.length ≤ fuel →
      body.all (fun m => notBlank (sContent m)) = true →
      acceptSt (foldSt s body) = true →
      (s = .st1 ↔ optIsPlainAI acc.head? = true) →
      optIsAiTC acc.head? = false →
      s ≠ .st3 →
      (s = .st2 → optIsTool body.head? = false) →
      saniLoopF fuel acc body = acc.reverse ++ body := by
  intro fuel
  induction fuel with
  | zero =>
    intro body acc s hlen hall hacc hiff haitc hns3 hs2
    cases body with
    | nil => show acc.reverse = acc.reverse ++ []; rw [List.append_nil]
    | cons m rest => simp at hlen
  | succ n ih =>
    intro body acc s hlen hall hacc hiff haitc hns3 hs2
    have hsdead : s ≠ .stDead := by
      intro h
      rw [h, foldSt_dead] at hacc
      exact absurd hacc (by decide)
    cases body with
    | nil => show acc.reverse = acc.reverse ++ []; rw [List.append_nil]
    | cons m rest =>
      rw [List.all_cons, Bool.and_eq_true] at hall
      obtain ⟨hnb1, hallr⟩ := hall
      have hlen' : rest.length ≤ n := by
        rw [List.length_cons] at hlen
        omega
      cases m with
      | systemS c =>
        have hstep : stepSt s (.systemS c) = .st0 := by
          cases s with
          | st0 => rfl
          | st1 => rfl
          | st2 => rfl
          | st3 => exact absurd rfl hns3
          | stDead => exact absurd rfl hsdead
        rw [foldSt_cons, hstep] at hacc
        have hred : saniLoopF (n + 1) acc (.systemS c :: rest) =
            saniLoopF n (.systemS c :: acc) rest := rfl
        rw [hred, ih rest (.systemS c :: acc) .st0 hlen' hallr hacc
          ⟨(fun h => nomatch h), (fun h => nomatch h)⟩ rfl (fun h => nomatch h)
          (fun h => nomatch h)]
        rw [List.reverse_cons, List.append_assoc]
        rfl
      | humanS c =>
        have hstep : stepSt s (.humanS c) = .st0 := by
          cases s with
          | st0 => rfl
          | st1 => rfl
          | st2 => rfl
          | st3 => exact absurd rfl hns3
          | stDead => exact absurd rfl hsdead
        rw [foldSt_cons, hstep] at hacc
        have hred : saniLoopF (n + 1) acc (.humanS c :: rest) =
            saniLoopF n (.humanS c :: acc) rest := rfl
        rw [hred, ih rest (.humanS c :: acc) .st0 hlen' hallr hacc
          ⟨(fun h => nomatch h), (fun h => nomatch h)⟩ rfl (fun h => nomatch h)
          (fun h => nomatch h)]
        rw [List.reverse_cons, List.append_assoc]
        rfl
      | toolS c tid nm =>
        exfalso
        cases s with
        | st0 =>
          rw [foldSt_cons, show stepSt .st0 (.toolS c tid nm) = .stDead from rfl,
            foldSt_dead] at hacc
          exact absurd hacc (by decide)
        | st1 =>
          rw [foldSt_cons, show stepSt .st1 (.toolS c tid nm) = .stDead from rfl,
            foldSt_dead] at hacc
          exact absurd hacc (by decide)
        | st2 => exact nomatch (hs2 rfl)
        | st3 => exact hns3 rfl
        | stDead => exact hsdead rfl
      | aiS c tcs =>
        cases tcs with
        | nil =>
          have hs1 : s ≠ .st1 := by
            intro h
            rw [h, foldSt_cons, show stepSt .st1 (.aiS c []) = .stDead from rfl,
              foldSt_dead] at hacc
            exact absurd hacc (by decide)
          have hstep : stepSt s (.aiS c []) = .st1 := by
            cases s with
            | st0 => rfl
            | st1 => exact absurd rfl hs1
            | st2 => rfl
            | st3 => exact absurd rfl hns3
            | stDead => exact absurd rfl hsdead
          rw [foldSt_cons, hstep] at hacc
          have hplain : optIsPlainAI acc.head? = false := by
            cases hop : optIsPlainAI acc.head?
            · rfl
            · exact absurd (hiff.mpr hop) hs1
          have hnb1' : notBlank c = true := hnb1
          rw [saniLoopF_plain_append n acc c rest hplain, if_pos hnb1',
            ih rest (.aiS c [] :: acc) .st1 hlen' hallr hacc
              ⟨fun _ => rfl, fun _ => rfl⟩ rfl (fun h => nomatch h)
              (fun h => nomatch h)]
          rw [List.reverse_cons, List.append_assoc]
          rfl
        | cons tc tcs' =>
          have hstep : stepSt s (.aiS c (tc :: tcs')) = .st3 := by
            cases s with
            | st0 => rfl
            | st1 => rfl
            | st2 => rfl
            | st3 => exact absurd rfl hns3
            | stDead => exact absurd rfl hsdead
          rw [foldSt_cons, hstep] at hacc
          cases rest with
          | nil => exact absurd hacc (by decide)
          | cons m2 r2 =>
            have htool2 : isToolS m2 = true := by
              cases m2 with
              | toolS c2 t2 n2 => rfl
              | systemS c2 =>
                rw [foldSt_cons, show stepSt .st3 (.systemS c2) = .stDead from rfl,
                  foldSt_dead] at hacc
                exact absurd hacc (by decide)
              | humanS c2 =>
                rw [foldSt_cons, show stepSt .st3 (.humanS c2) = .stDead from rfl,
                  foldSt_dead] at hacc
                exact absurd hacc (by decide)
              | aiS c2 tcs2 =>
                cases tcs2 with
                | nil =>
                  rw [foldSt_cons, show stepSt .st3 (.aiS c2 []) = .stDead from rfl,
                    foldSt_dead] at hacc
                  exact absurd hacc (by decide)
                | cons x xs =>
                  rw [foldSt_cons, show stepSt .st3 (.aiS c2 (x :: xs)) = .stDead from rfl,
                    foldSt_dead] at hacc
                  exact absurd hacc (by decide)
            have hrunne : (m2 :: r2).takeWhile isToolS ≠ [] := by
              rw [List.takeWhile_cons_of_pos htool2]
              exact List.cons_ne_nil _ _
            have hallrun : ((m2 :: r2).takeWhile isToolS).all
                (fun m => notBlank (sContent m)) = true :=
              all_takeWhile_of_all _ _ _ hallr
            have htools : ((m2 :: r2).takeWhile isToolS).all isToolS = true :=
              takeWhile_all _ _
            have htmsid : ((m2 :: r2).takeWhile isToolS).map fixToolS =
                (m2 :: r2).takeWhile isToolS := map_fixTool_id _ hallrun
            have hnb1' : notBlank c = true := hnb1
            have hpatch : patchAIS c (tc :: tcs') = .aiS c (tc :: tcs') := by
              unfold patchAIS
              rw [if_pos hnb1']
            have hsplit : (m2 :: r2).takeWhile isToolS ++ (m2 :: r2).dropWhile isToolS =
                m2 :: r2 := List.takeWhile_append_dropWhile isToolS (m2 :: r2)
            have hacc2 : acceptSt (foldSt .st2 ((m2 :: r2).dropWhile isToolS)) = true := by
              rw [← hsplit, foldSt_append,
                foldSt_toolrun3 _ htools hrunne] at hacc
              exact hacc
            obtain ⟨y, hy, hyt⟩ := head_rev_tool ((m2 :: r2).takeWhile isToolS)
              (.aiS c (tc :: tcs') :: acc) htools hrunne
            have hlen2 : ((m2 :: r2).dropWhile isToolS).length ≤ n := by
              have := lengthDropWhileLe isToolS (m2 :: r2)
              rw [List.length_cons] at hlen
              omega
            rw [saniLoopF_aitc_run n acc c tc tcs' (m2 :: r2) hrunne, htmsid, hpatch,
              ih ((m2 :: r2).dropWhile isToolS)
                (((m2 :: r2).takeWhile isToolS).reverse ++ .aiS c (tc :: tcs') :: acc)
                .st2 hlen2 (all_dropWhile_of_all _ _ _ hallr) hacc2
                ?iff2 ?aitc2 (fun h => nomatch h) ?hs22]
            case iff2 =>
              constructor
              · intro h
                exact nomatch h
              · intro h
                rw [hy] at h
                rw [show optIsPlainAI (some y) = isPlainAIS y from rfl,
                  (tool_not_plain y hyt).1] at h
                exact nomatch h
            case aitc2 =>
              rw [hy]
              rw [show optIsAiTC (some y) = isAiTCS y from rfl]
              exact (tool_not_plain y hyt).2
            case hs22 =>
              intro _
              cases hh : ((m2 :: r2).dropWhile isToolS).head? with
              | none => rfl
              | some x =>
                rw [show optIsTool (some x) = isToolS x from rfl]
                exact dropWhile_head_false _ _ x hh
            rw [List.reverse_append, List.reverse_reverse, List.reverse_cons,
              List.append_assoc, List.append_assoc, hsplit]
            rfl

theorem foldSt_concat (s : SanSt) (A : List SMsg) (x : SMsg) :
    foldSt s (A ++ [x]) = stepSt (foldSt s A) x := by
  rw [foldSt_append]
  rfl

/-- Shape lemma: from a fresh or compatible accumulator, the body loop
run on any input whose tool-calling assistants are all followed by tool
messages produces an automaton-accepted output. -/
theorem saniLoopF_canon :
    ∀ fuel body acc s,
      body.length ≤ fuel →
      toolCallsFollowed body = true →
      foldSt .st0 acc.reverse = s →
      (s = .st0 ∨ s = .st1 ∨ s = .st2) →
      (s = .st1 ↔ optIsPlainAI acc.head? = true) →
      optIsAiTC acc.head? = false →
      acceptSt (foldSt .st0 (saniLoopF fuel acc body)) = true := by
  intro fuel
  induction fuel with
  | zero =>
    intro body acc s hlen htcf hfold hmem hiff haitc
    cases body with
    | nil =>
      show acceptSt (foldSt .st0 acc.reverse) = true
      rw [hfold]
      rcases hmem with h | h | h <;> rw [h] <;> rfl
    | cons m rest => simp at hlen
  | succ n ih =>
    intro body acc s hlen htcf hfold hmem hiff haitc
    cases body with
    | nil =>
      show acceptSt (foldSt .st0 acc.reverse) = true
      rw [hfold]
      rcases hmem with h | h | h <;> rw [h] <;> rfl
    | cons m rest =>
      have htcfr : toolCallsFollowed rest = true := tcf_tail m rest htcf
      have hlen' : rest.length ≤ n := by
        rw [List.length_cons] at hlen
        omega
      cases m with
      | systemS c =>
        have hred : saniLoopF (n + 1) acc (.systemS c :: rest) =
            saniLoopF n (.systemS c :: acc) rest := rfl
        rw [hred]
        refine ih rest (.systemS c :: acc) .st0 hlen' htcfr ?_ (Or.inl rfl)
          ⟨(fun h => nomatch h), (fun h => nomatch h)⟩ rfl
        rw [List.reverse_cons, foldSt_concat, hfold]
        rcases hmem with h | h | h <;> rw [h] <;> rfl
      | humanS c =>
        have hred : saniLoopF (n + 1) acc (.humanS c :: rest) =
            saniLoopF n (.humanS c :: acc) rest := rfl
        rw [hred]
        refine ih rest (.humanS c :: acc) .st0 hlen' htcfr ?_ (Or.inl rfl)
          ⟨(fun h => nomatch h), (fun h => nomatch h)⟩ rfl
        rw [List.reverse_cons, foldSt_concat, hfold]
        rcases hmem with h | h | h <;> rw [h] <;> rfl
      | toolS c tid nm =>
        rw [saniLoopF_tool_drop n acc c tid nm rest haitc]
        exact ih rest acc s hlen' htcfr hfold hmem hiff haitc
      | aiS c tcs =>
        cases tcs with
        | nil =>
          by_cases hpl : optIsPlainAI acc.head? = true
          · cases acc with
            | nil => exact nomatch hpl
            | cons a accT =>
              cases a with
              | aiS pc ptcs =>
                cases ptcs with
                | cons x xs => exact nomatch hpl
                | nil =>
                  have hs1 : s = .st1 := hiff.mpr hpl
                  have hs0' : stepSt (foldSt .st0 accT.reverse) (.aiS pc []) = s := by
                    rw [← foldSt_concat, ← List.reverse_cons]
                    exact hfold
                  have hnew : foldSt .st0
                      (.aiS (pc ++ "\n" ++ (if notBlank c then c else "(empty response)"))
                        [] :: accT).reverse = .st1 := by
                    rw [List.reverse_cons, foldSt_concat]
                    cases h0 : foldSt .st0 accT.reverse with
                    | st0 => rfl
                    | st2 => rfl
                    | st1 =>
                      rw [h0] at hs0'
                      rw [hs1] at hs0'
                      exact nomatch hs0'
                    | st3 =>
                      rw [h0] at hs0'
                      rw [hs1] at hs0'
                      exact nomatch hs0'
                    | stDead =>
                      rw [h0] at hs0'
                      rw [hs1] at hs0'
                      exact nomatch hs0'
                  rw [saniLoopF_plain_merge n pc accT c rest]
                  exact ih rest _ .st1 hlen' htcfr hnew (Or.inr (Or.inl rfl))
                    ⟨(fun _ => rfl), (fun _ => rfl)⟩ rfl
              | systemS pc => exact nomatch hpl
              | humanS pc => exact nomatch hpl
              | toolS pc pt pn => exact nomatch hpl
          · have hplf : optIsPlainAI acc.head? = false := by
              cases hq : optIsPlainAI acc.head?
              · rfl
              · exact absurd hq hpl
            have hs1 : s ≠ .st1 := fun h => hpl (hiff.mp h)
            have hmem' : s = .st0 ∨ s = .st2 := by
              rcases hmem with h | h | h
              · exact Or.inl h
              · exact absurd h hs1
              · exact Or.inr h
            have hnew : foldSt .st0
                (.aiS (if notBlank c then c else "(empty response)") [] :: acc).reverse =
                .st1 := by
              rw [List.reverse_cons, foldSt_concat, hfold]
              rcases hmem' with h | h <;> rw [h] <;> rfl
            rw [saniLoopF_plain_append n acc c rest hplf]
            exact ih rest _ .st1 hlen' htcfr hnew (Or.inr (Or.inl rfl))
              ⟨(fun _ => rfl), (fun _ => rfl)⟩ rfl
        | cons tc tcs' =>
          have hht : headIsTool rest = true := by
            rw [toolCallsFollowed, Bool.and_eq_true] at htcf
            have h1 := htcf.1
            simp only [show isAiTCS (.aiS c (tc :: tcs')) = true from rfl, if_true] at h1
            exact h1
          cases rest with
          | nil => exact nomatch hht
          | cons m2 r2 =>
            have htool2 : isToolS m2 = true := by
              cases m2 with
              | toolS c2 t2 n2 => rfl
              | systemS c2 => exact nomatch hht
              | humanS c2 => exact nomatch hht
              | aiS c2 tcs2 => exact nomatch hht
            have hrunne : (m2 :: r2).takeWhile isToolS ≠ [] := by
              rw [List.takeWhile_cons_of_pos htool2]
              exact List.cons_ne_nil _ _
            have htools : ((m2 :: r2).takeWhile isToolS).all isToolS = true :=
              takeWhile_all _ _
            have htools2 : (((m2 :: r2).takeWhile isToolS).map fixToolS).all isToolS = true :=
              map_fixTool_all_tool _ htools
            have htmsne : ((m2 :: r2).takeWhile isToolS).map fixToolS ≠ [] := by
              intro h
              rw [List.map_eq_nil_iff] at h
              exact hrunne h
            have hstep3 : stepSt s (patchAIS c (tc :: tcs')) = .st3 := by
              unfold patchAIS
              rcases hmem with h | h | h <;> rw [h] <;> split <;> rfl
            have hfold' : foldSt .st0
                ((((m2 :: r2).takeWhile isToolS).map fixToolS).reverse ++
                  patchAIS c (tc :: tcs') :: acc).reverse = .st2 := by
              rw [List.reverse_append, List.reverse_reverse, List.reverse_cons,
                foldSt_append, foldSt_concat, hfold, hstep3]
              exact foldSt_toolrun3 _ htools2 htmsne
            obtain ⟨y, hy, hyt⟩ := head_rev_tool (((m2 :: r2).takeWhile isToolS).map fixToolS)
              (patchAIS c (tc :: tcs') :: acc) htools2 htmsne
            have hlen2 : ((m2 :: r2).dropWhile isToolS).length ≤ n := by
              have := lengthDropWhileLe isToolS (m2 :: r2)
              rw [List.length_cons] at hlen
              omega
            rw [saniLoopF_aitc_run n acc c tc tcs' (m2 :: r2) hrunne]
            refine ih _ _ .st2 hlen2 (tcf_dropWhile _ _ htcfr) hfold'
              (Or.inr (Or.inr rfl)) ?_ ?_
            · constructor
              · intro h
                exact nomatch h
              · intro h
                rw [hy] at h
                rw [show optIsPlainAI (some y) = isPlainAIS y from rfl,
                  (tool_not_plain y hyt).1] at h
                exact nomatch h
            · rw [hy]
              rw [show optIsAiTC (some y) = isAiTCS y from rfl]
              exact (tool_not_plain y hyt).2

theorem split_sys (A B : List SMsg)
    (hA : ∀ a ∈ A, isSystemS a = true)
    (hB : ∀ b, B.head? = some b → isSystemS b = false) :
    (A ++ B).takeWhile isSystemS = A ∧ (A ++ B).dropWhile isSystemS = B := by
  induction A with
  | nil =>
    simp only [List.nil_append]
    cases B with
    | nil => exact ⟨rfl, rfl⟩
    | cons b B' =>
      have hb := hB b rfl
      have hbn : ¬(isSystemS b = true) := by
        rw [hb]
        exact Bool.false_ne_true
      exact ⟨List.takeWhile_cons_of_neg hbn, List.dropWhile_cons_of_neg hbn⟩
  | cons a A' ih =>
    have ha := hA a (List.mem_cons_self _ _)
    have ihr := ih (fun x hx => hA x (List.mem_cons_of_mem _ hx))
    rw [List.cons_append, List.takeWhile_cons_of_pos ha, List.dropWhile_cons_of_pos ha]
    exact ⟨by rw [ihr.1], ihr.2⟩

theorem all_map_finalFix_notBlank (l : List SMsg) :
    (l.map finalFixS).all (fun m => notBlank (sContent m)) = true := by
  induction l with
  | nil => rfl
  | cons m t ih =>
    rw [List.map_cons, List.all_cons, Bool.and_eq_true]
    exact ⟨finalFixS_notBlank m, ih⟩

theorem human_not_system (m : SMsg) (h : isHumanS m = true) : isSystemS m = false := by
  cases m with
  | humanS c => rfl
  | systemS c => simp [isHumanS] at h
  | aiS c tcs => simp [isHumanS] at h
  | toolS c tid n => simp [isHumanS] at h

theorem insertLeadingHuman_head (s : List SMsg) (q : SMsg) (Q' : List SMsg)
    (h : insertLeadingHuman s = q :: Q') : isHumanS q = true := by
  cases s with
  | nil => exact nomatch h
  | cons m t =>
    have h' : (if isHumanS m = true then m :: t
        else .humanS "(continued conversation)" :: m :: t) = q :: Q' := h
    by_cases hm : isHumanS m = true
    · rw [if_pos hm, List.cons.injEq] at h'
      rw [← h'.1]
      exact hm
    · rw [if_neg hm, List.cons.injEq] at h'
      rw [← h'.1]
      rfl

theorem foldSt_insertHuman (s : List SMsg) :
    foldSt .st0 (insertLeadingHuman s) = foldSt .st0 s := by
  cases s with
  | nil => rfl
  | cons m t =>
    show foldSt .st0 (if isHumanS m = true then m :: t
      else .humanS "(continued conversation)" :: m :: t) = foldSt .st0 (m :: t)
    by_cases hm : isHumanS m = true
    · rw [if_pos hm]
    · rw [if_neg hm]
      rfl

/-- The output of `sanitize_messages` on an input whose tool-calling
assistants all carry their tool runs is canonical. -/
theorem sanitize_canon (xs : List SMsg) (h : toolCallsFollowed xs = true) :
    canonMsgs (sanitizeMessages xs) = true := by
  cases xs with
  | nil => decide
  | cons x0 xs0 =>
    have hdef : sanitizeMessages (x0 :: xs0) =
        (((x0 :: xs0).takeWhile isSystemS).map fixSystemS).map finalFixS ++
          (insertLeadingHuman
            (saniLoopF ((x0 :: xs0).dropWhile isSystemS).length []
              ((x0 :: xs0).dropWhile isSystemS))).map finalFixS := by
      rw [show sanitizeMessages (x0 :: xs0) =
        (((x0 :: xs0).takeWhile isSystemS).map fixSystemS ++
          insertLeadingHuman
            (saniLoopF ((x0 :: xs0).dropWhile isSystemS).length []
              ((x0 :: xs0).dropWhile isSystemS))).map finalFixS from rfl]
      rw [List.map_append]
    have hsysall := takeWhile_all isSystemS (x0 :: xs0)
    have hAsys : ∀ a ∈ (((x0 :: xs0).takeWhile isSystemS).map fixSystemS).map finalFixS,
        isSystemS a = true := by
      intro a ha
      rw [List.mem_map] at ha
      obtain ⟨b, hb, rfl⟩ := ha
      rw [List.mem_map] at hb
      obtain ⟨t, ht, rfl⟩ := hb
      rw [finalFixS_system]
      exact (fixSystemS_system t (List.all_eq_true.mp hsysall t ht)).1
    have hQhead : ∀ b,
        ((insertLeadingHuman
          (saniLoopF ((x0 :: xs0).dropWhile isSystemS).length []
            ((x0 :: xs0).dropWhile isSystemS))).map finalFixS).head? = some b →
        isSystemS b = false := by
      intro b hb
      cases hq : insertLeadingHuman
          (saniLoopF ((x0 :: xs0).dropWhile isSystemS).length []
            ((x0 :: xs0).dropWhile isSystemS)) with
      | nil =>
        rw [hq] at hb
        exact absurd hb (by simp)
      | cons q Q' =>
        rw [hq, List.map_cons, List.head?_cons, Option.some.injEq] at hb
        rw [← hb, finalFixS_system]
        exact human_not_system q (insertLeadingHuman_head _ q Q' hq)
    obtain ⟨hsplit1, hsplit2⟩ := split_sys _ _ hAsys hQhead
    rw [hdef]
    unfold canonMsgs
    rw [hsplit1, hsplit2]
    simp only [Bool.and_eq_true]
    refine ⟨⟨⟨all_map_finalFix_notBlank _, all_map_finalFix_notBlank _⟩, ?_⟩, ?_⟩
    · cases hq : insertLeadingHuman
          (saniLoopF ((x0 :: xs0).dropWhile isSystemS).length []
            ((x0 :: xs0).dropWhile isSystemS)) with
      | nil => rfl
      | cons q Q' =>
        show isHumanS (finalFixS q) = true
        rw [finalFixS_human]
        exact insertLeadingHuman_head _ q Q' hq
    · rw [foldSt_map_finalFix, foldSt_insertHuman]
      exact saniLoopF_canon _ _ [] .st0 (le_refl _)
        (tcf_dropWhile isSystemS _ h) rfl (Or.inl rfl)
        ⟨(fun hx => nomatch hx), (fun hx => nomatch hx)⟩ rfl

/-- `sanitize_messages` is the identity on canonical lists. -/
theorem sanitize_canon_id (ys : List SMsg) (h : canonMsgs ys = true) :
    sanitizeMessages ys = ys := by
  cases ys with
  | nil => rfl
  | cons y0 ys0 =>
    unfold canonMsgs at h
    simp only [Bool.and_eq_true] at h
    obtain ⟨⟨⟨h1, h2⟩, h3⟩, h4⟩ := h
    have hdef : sanitizeMessages (y0 :: ys0) =
        (((y0 :: ys0).takeWhile isSystemS).map fixSystemS ++
          insertLeadingHuman
            (saniLoopF ((y0 :: ys0).dropWhile isSystemS).length []
              ((y0 :: ys0).dropWhile isSystemS))).map finalFixS := rfl
    have hpre : ((y0 :: ys0).takeWhile isSystemS).map fixSystemS =
        (y0 :: ys0).takeWhile isSystemS := map_fixSystem_id _ h1
    cases hbody : (y0 :: ys0).dropWhile isSystemS with
    | nil =>
      rw [hdef, hpre, hbody]
      show (((y0 :: ys0).takeWhile isSystemS) ++
        insertLeadingHuman (saniLoopF 0 [] [])).map finalFixS = y0 :: ys0
      rw [show insertLeadingHuman (saniLoopF 0 [] []) = [] from rfl, List.append_nil,
        map_finalFix_id _ h1]
      conv_rhs => rw [← List.takeWhile_append_dropWhile isSystemS (y0 :: ys0)]
      rw [hbody, List.append_nil]
    | cons m rest =>
      have hhum : isHumanS m = true := by
        rw [hbody] at h3
        exact h3
      rw [hbody] at h2 h4
      have hid : saniLoopF (m :: rest).length [] (m :: rest) = m :: rest :=
        saniLoopF_id _ _ [] .st0 (le_refl _) h2 h4
          ⟨(fun hx => nomatch hx), (fun hx => nomatch hx)⟩ rfl
          (fun hx => nomatch hx) (fun hx => nomatch hx)
      have hins : insertLeadingHuman (m :: rest) = m :: rest := by
        show (if isHumanS m = true then m :: rest
          else .humanS "(continued conversation)" :: m :: rest) = m :: rest
        rw [if_pos hhum]
      have hall : (((y0 :: ys0).takeWhile isSystemS) ++ m :: rest).all
          (fun x => notBlank (sContent x)) = true := by
        rw [List.all_append, Bool.and_eq_true]
        exact ⟨h1, h2⟩
      rw [hdef, hpre, hbody, hid, hins, map_finalFix_id _ hall, ← hbody,
        List.takeWhile_append_dropWhile]

/-- Claim C3 (amended): `sanitize_messages` is idempotent on every
message list in which each assistant message bearing `tool_calls` is
immediately followed by a Tool message (so the tool-call-stripping
branch is never taken):
`sanitize(sanitize(xs)) = sanitize(xs)`. -/
theorem C3_sanitize_idempotent_when_tool_calls_followed (xs : List SMsg)
    (h : toolCallsFollowed xs = true) :
    sanitizeMessages (sanitizeMessages xs) = sanitizeMessages xs :=
  sanitize_canon_id _ (sanitize_canon xs h)

/-- Witness for C3 at a concrete list with a leading system message,
adjacent plain assistants and a full tool-call group. -/
theorem C3_sanitize_idempotent_witness :
    sanitizeMessages (sanitizeMessages
      [.systemS "sys", .aiS "a" [], .aiS "b" [],
       .aiS "c" [⟨"t", "x", some "1"⟩], .toolS "out" (some "1") (some "t")]) =
    sanitizeMessages
      [.systemS "sys", .aiS "a" [], .aiS "b" [],
       .aiS "c" [⟨"t", "x", some "1"⟩], .toolS "out" (some "1") (some "t")] :=
  C3_sanitize_idempotent_when_tool_calls_followed _ (by decide)
